import Mathlib

/-!
Verification of the core of `swisstxt/go-astisub` (`subtitles.go`):
the duration text codec (`parseDuration` / `formatDuration`), the packed
color codec (`newColorFromString` / `Color.String`), and the timing algebra
on subtitle items (`Order`, `Duration`, `ForceDuration`, `Fragment`,
`Unfragment`, `Merge`).

Go strings are modelled as lists of characters (`Str`); `time.Duration`
(an `int64` of nanoseconds) is modelled as `Int`, with hypotheses keeping
values inside the `int64` range where that matters.  Go's `strconv` and
`strings` helpers used by the source are embedded below with their Go
semantics.
-/

set_option maxHeartbeats 1000000
set_option synthInstance.maxHeartbeats 400000

namespace Astisub

/-- A Go string, seen as its sequence of characters. -/
abbrev Str := List Char

/-! ### Go `strings` helpers used by the source -/

/-- `unicode.IsSpace`: Unicode White_Space property, as used by
`strings.TrimSpace`. -/
def goIsSpace (c : Char) : Bool :=
  let n := c.toNat
  (9 ≤ n && n ≤ 13) || n == 32 || n == 0x85 || n == 0xA0 || n == 0x1680 ||
    (0x2000 ≤ n && n ≤ 0x200A) || n == 0x2028 || n == 0x2029 || n == 0x202F ||
    n == 0x205F || n == 0x3000

/-- `strings.TrimSpace`: drop leading and trailing white space. -/
def goTrimSpace (s : Str) : Str :=
  ((s.dropWhile goIsSpace).reverse.dropWhile goIsSpace).reverse

/-- A prefix is no longer than the whole list. -/
theorem isPrefixOf_length_le : ∀ (s t : Str), s.isPrefixOf t → s.length ≤ t.length
  | [], _, _ => by simp
  | _ :: _, [], h => by simp [List.isPrefixOf] at h
  | a :: s, b :: t, h => by
    simp only [List.isPrefixOf, Bool.and_eq_true] at h
    simpa using isPrefixOf_length_le s t h.2

/-- Worker for `strings.Split` with a non-empty separator: scan the string,
emitting the accumulated chunk each time `sep` occurs. -/
def goSplitAux (sep : Str) (s acc : Str) : List Str :=
  if h : sep ≠ [] ∧ sep.isPrefixOf s then
    acc :: goSplitAux sep (s.drop sep.length) []
  else
    match s with
    | [] => [acc]
    | c :: rest => goSplitAux sep rest (acc ++ [c])
termination_by s.length
decreasing_by
  · have hle : sep.length ≤ s.length := isPrefixOf_length_le _ _ h.2
    have : 0 < sep.length := List.length_pos.mpr h.1
    simp only [List.length_drop]
    omega
  · simp

/-- `strings.Split s sep`.  With an empty separator Go splits after each
rune; otherwise the string is cut at each occurrence of `sep`. -/
def goSplit (s sep : Str) : List Str :=
  if sep = [] then s.map (fun c => [c]) else goSplitAux sep s []

/-- `strings.Join` with separator `sep`. -/
def goJoin (xs : List Str) (sep : Str) : Str :=
  match xs with
  | [] => []
  | [x] => x
  | x :: rest => x ++ sep ++ goJoin rest sep

/-! ### Go `strconv` helpers used by the source -/

/-- Value of one digit character, per `strconv` (`0`-`9`, then letters,
case-insensitive).  Characters that are no digit in any base get value 37,
which is `≥` every supported base and therefore always invalid. -/
def digitVal (c : Char) : Nat :=
  if '0' ≤ c ∧ c ≤ '9' then c.toNat - 48
  else if 'a' ≤ c ∧ c ≤ 'z' then c.toNat - 97 + 10
  else if 'A' ≤ c ∧ c ≤ 'Z' then c.toNat - 65 + 10
  else 37

/-- Numeric value of a digit string in a base (most significant first). -/
def charsVal (base : Nat) (s : Str) : Nat :=
  s.foldl (fun a c => a * base + digitVal c) 0

/-- `strconv.ParseUint(s, base, 64)` restricted to an explicitly given base:
every character must be a digit of the base; the range check against a bit
size is left to `goParseInt`. -/
def goParseDigits (base : Nat) (s : Str) : Option Nat :=
  if s = [] then none
  else if s.all (fun c => digitVal c < base) then some (charsVal base s)
  else none

/-- The optional leading sign of `strconv.ParseInt`'s input. -/
def goSign (s : Str) : Bool × Str :=
  match s with
  | '-' :: rest => (true, rest)
  | '+' :: rest => (false, rest)
  | _ => (false, s)

/-- `strconv.ParseInt(s, base, 64)` for an explicit base (2..36): an
optional sign, then base digits; errors when empty, when a character is
invalid, or when the value does not fit in an `int64`. -/
def goParseInt (base : Nat) (s : Str) : Option Int :=
  if base < 2 ∨ 36 < base then none
  else
    match goParseDigits base (goSign s).2 with
    | none => none
    | some v =>
      if (goSign s).1 then
        if v ≤ 2 ^ 63 then some (-(v : Int)) else none
      else
        if v ≤ 2 ^ 63 - 1 then some (v : Int) else none

/-- `strconv.Atoi` = `ParseInt(s, 10, 0)` on a 64-bit platform. -/
def goAtoi (s : Str) : Option Int := goParseInt 10 s

/-- Digit character for a value `< 36`, lowercase as in `strconv`. -/
def digitChar (d : Nat) : Char :=
  if d < 10 then Char.ofNat (48 + d) else Char.ofNat (97 + (d - 10))

/-- Digits of a natural number in a base, most significant first, with
explicit fuel so the kernel can evaluate it (structural recursion; the
quotient loses at least one unit per step, so fuel `n + 1` always
suffices). -/
def formatNatF : Nat → Nat → Nat → Str
  | 0, _, n => [digitChar n]
  | fuel + 1, base, n =>
    if n < base ∨ base < 2 then [digitChar n]
    else formatNatF fuel base (n / base) ++ [digitChar (n % base)]

/-- `strconv.FormatUint`: digits of a natural number in a base. -/
def formatNat (base n : Nat) : Str := formatNatF (n + 1) base n

/-- `strconv.FormatInt` / `strconv.Itoa`: minus sign then digits. -/
def formatInt (base : Nat) (i : Int) : Str :=
  if i < 0 then '-' :: formatNat base i.natAbs else formatNat base i.toNat

/-- Left-pad with a character up to a width (`fmt` zero padding). -/
def pad (n : Nat) (c : Char) (s : Str) : Str :=
  List.replicate (n - s.length) c ++ s

/-! ### The color codec (`Color`, `newColorFromString`, `Color.String`) -/

/-- `Color`: four 8-bit channels.  The `uint8` fields are modelled as `Nat`
with `< 256` hypotheses where a theorem needs them. -/
structure Color where
  Alpha : Nat
  Blue : Nat
  Green : Nat
  Red : Nat
deriving DecidableEq

/-- Channel unpacking of `newColorFromString`: `uint8(i>>24) & 0xff` is the
arithmetic shift (floor division: on `Int` with this toolchain `/` and `%`
are Euclidean division, which for the positive divisors used here agrees
with flooring, hence with Go's arithmetic `>>`) followed by the `uint8`
conversion (value mod 256, non-negative); the `& 0xff` in the source is
redundant after the `uint8` conversion. -/
def unpackColor (i : Int) : Color :=
  { Alpha := ((i / 2 ^ 24) % 256).toNat
    Blue := ((i / 2 ^ 16) % 256).toNat
    Green := ((i / 2 ^ 8) % 256).toNat
    Red := (i % 256).toNat }

/-- `newColorFromString`: parse a signed 64-bit integer in the given base,
then unpack the low 32 bits into the four channels. -/
def newColorFromString (s : Str) (base : Nat) : Option Color :=
  (goParseInt base s).map unpackColor

/-- The packed 32-bit word `alpha<<24 | blue<<16 | green<<8 | red` of
`Color.String`.  The source computes it in `uint32`; for in-range channels
(`< 256`) no wrap-around occurs. -/
def Color.word (c : Color) : Nat :=
  (c.Alpha <<< 24) ||| ((c.Blue <<< 16) ||| ((c.Green <<< 8) ||| c.Red))

/-- `Color.String` of the source: base 16 gives `fmt.Sprintf("%.8x", word)`
(lowercase hex, zero-padded to 8 digits); any other base gives
`strconv.Itoa(int(word))`. -/
def Color.string (c : Color) (base : Nat) : Str :=
  if base = 16 then pad 8 '0' (formatNat 16 c.word) else formatInt 10 (c.word : Int)

/-! ### Arithmetic facts about the helpers -/

/-- Bit `i` of `x * 2 ^ k + y` for `y < 2 ^ k`: low bits come from `y`,
high bits from `x`. -/
theorem testBit_mul_pow_add (x y k i : Nat) (h : y < 2 ^ k) :
    (x * 2 ^ k + y).testBit i = if i < k then y.testBit i else x.testBit (i - k) := by
  rcases lt_or_ge i k with hik | hik
  · rw [if_pos hik, Nat.testBit_to_div_mod, Nat.testBit_to_div_mod]
    have e1 : x * 2 ^ k = 2 ^ i * (2 * (x * 2 ^ (k - i - 1))) := by
      have h2 : (2 : Nat) ^ k = 2 ^ i * (2 * 2 ^ (k - i - 1)) := by
        rw [← Nat.pow_succ', ← Nat.pow_add]
        congr 1
        omega
      calc x * 2 ^ k = x * (2 ^ i * (2 * 2 ^ (k - i - 1))) := by rw [← h2]
        _ = 2 ^ i * (2 * (x * 2 ^ (k - i - 1))) := by ring
    have hdiv : (x * 2 ^ k + y) / 2 ^ i = 2 * (x * 2 ^ (k - i - 1)) + y / 2 ^ i := by
      rw [e1, Nat.mul_add_div (Nat.pos_pow_of_pos i (by omega))]
    rw [hdiv, Nat.mul_add_mod]
  · rw [if_neg (by omega), Nat.testBit_to_div_mod, Nat.testBit_to_div_mod]
    have hdiv : (x * 2 ^ k + y) / 2 ^ i = x / 2 ^ (i - k) := by
      have e1 : (2 : Nat) ^ i = 2 ^ k * 2 ^ (i - k) := by
        rw [← Nat.pow_add]
        congr 1
        omega
      rw [e1, ← Nat.div_div_eq_div_mul]
      congr 1
      rw [Nat.mul_comm x, Nat.mul_add_div (Nat.pos_pow_of_pos k (by omega)),
        Nat.div_eq_of_lt h, Nat.add_zero]
    rw [hdiv]

/-- For `y < 2 ^ k` the bitwise-or of `x <<< k` with `y` is plain addition;
this is how the color word packs its channels. -/
theorem shiftLeft_lor_eq (x y k : Nat) (h : y < 2 ^ k) :
    (x <<< k) ||| y = x * 2 ^ k + y := by
  apply Nat.eq_of_testBit_eq
  intro i
  rw [Nat.testBit_lor, Nat.testBit_shiftLeft, testBit_mul_pow_add x y k i h]
  rcases lt_or_ge i k with hik | hik
  · simp [if_pos hik, show ¬(i ≥ k) by omega]
  · have hy : y.testBit i = false :=
      Nat.testBit_lt_two_pow (lt_of_lt_of_le h (Nat.pow_le_pow_right (by omega) hik))
    simp [if_neg (show ¬ i < k by omega), hik, hy]

/-- The packed color word, as a sum, for in-range channels. -/
theorem Color.word_eq (c : Color) (hb : c.Blue < 256) (hg : c.Green < 256)
    (hr : c.Red < 256) :
    c.word = c.Alpha * 2 ^ 24 + (c.Blue * 2 ^ 16 + (c.Green * 2 ^ 8 + c.Red)) := by
  unfold Color.word
  rw [shiftLeft_lor_eq c.Green c.Red 8 (by omega),
    shiftLeft_lor_eq c.Blue _ 16 (by simp only [show (2:Nat)^8 = 256 from rfl,
      show (2:Nat)^16 = 65536 from rfl]; omega),
    shiftLeft_lor_eq c.Alpha _ 24 (by simp only [show (2:Nat)^8 = 256 from rfl,
      show (2:Nat)^16 = 65536 from rfl, show (2:Nat)^24 = 16777216 from rfl]; omega)]

/-- Every digit value below 36 formats to a character that reads back. -/
theorem digitVal_digitChar : ∀ d < 36, digitVal (digitChar d) = d := by decide

/-- A character with digit value below 10 is a decimal digit. -/
theorem digitVal_lt_ten (c : Char) (h : digitVal c < 10) : '0' ≤ c ∧ c ≤ '9' := by
  unfold digitVal at h
  split at h
  · assumption
  · split at h
    · omega
    · split at h <;> omega

/-- `charsVal`'s fold from an arbitrary accumulator. -/
theorem charsVal_foldl (base a : Nat) (s : Str) :
    s.foldl (fun a c => a * base + digitVal c) a = a * base ^ s.length + charsVal base s := by
  induction s generalizing a with
  | nil => simp [charsVal]
  | cons c t ih =>
    simp only [List.foldl_cons, charsVal, List.length_cons]
    rw [ih (a * base + digitVal c)]
    have : t.foldl (fun a c => a * base + digitVal c) (0 * base + digitVal c)
        = (0 * base + digitVal c) * base ^ t.length + charsVal base t := ih _
    rw [this]
    ring

/-- `charsVal` over an append. -/
theorem charsVal_append (base : Nat) (s t : Str) :
    charsVal base (s ++ t) = charsVal base s * base ^ t.length + charsVal base t := by
  unfold charsVal
  rw [List.foldl_append, charsVal_foldl]
  rfl

/-- Leading `'0'` characters do not change a digit string's value. -/
theorem charsVal_replicate_zero (base k : Nat) :
    charsVal base (List.replicate k '0') = 0 := by
  induction k with
  | zero => rfl
  | succ n ih =>
    rw [List.replicate_succ, show charsVal base ('0' :: List.replicate n '0')
      = (List.replicate n '0').foldl (fun a c => a * base + digitVal c) (0 * base + digitVal '0')
      from rfl]
    rw [charsVal_foldl]
    simpa [digitVal] using ih

/-- `formatNatF` with sufficient fuel produces a non-empty string of valid
digits that evaluates back to its input. -/
theorem formatNatF_spec (base : Nat) (hb2 : 2 ≤ base) (hb : base ≤ 36) : ∀ (fuel n : Nat),
    n < fuel →
    formatNatF fuel base n ≠ [] ∧ (∀ c ∈ formatNatF fuel base n, digitVal c < base) ∧
      charsVal base (formatNatF fuel base n) = n := by
  intro fuel
  induction fuel with
  | zero => intro n hn; omega
  | succ f ih =>
    intro n hn
    show formatNatF (f + 1) base n ≠ [] ∧ _ ∧ _
    rw [show formatNatF (f + 1) base n
        = if n < base ∨ base < 2 then [digitChar n]
          else formatNatF f base (n / base) ++ [digitChar (n % base)] from rfl]
    split
    · next hn =>
      have hnb : n < base := by omega
      have hd : digitVal (digitChar n) = n := digitVal_digitChar n (by omega)
      refine ⟨by simp, ?_, ?_⟩
      · intro c hc
        simp only [List.mem_singleton] at hc
        subst hc
        omega
      · simp [charsVal, hd]
    · next hnlt =>
      have hnb : base ≤ n := by omega
      have hfuel : n / base < f := by
        have h1 : n / base < n := Nat.div_lt_self (by omega) (by omega)
        omega
      obtain ⟨-, hdig, hval⟩ := ih (n / base) hfuel
      have hmod : digitVal (digitChar (n % base)) = n % base :=
        digitVal_digitChar _ (by have := Nat.mod_lt n (show 0 < base by omega); omega)
      refine ⟨by simp, ?_, ?_⟩
      · intro c hc
        rcases List.mem_append.mp hc with h | h
        · exact hdig c h
        · simp only [List.mem_singleton] at h
          subst h
          have := Nat.mod_lt n (show 0 < base by omega)
          omega
      · rw [charsVal_append, hval]
        simp only [List.length_singleton, pow_one, charsVal, List.foldl_cons, List.foldl_nil,
          Nat.zero_mul, Nat.zero_add, hmod]
        rw [Nat.mul_comm (n / base) base]
        exact Nat.div_add_mod n base

/-- `formatNat` produces a non-empty string of valid digits that evaluates
back to its input. -/
theorem formatNat_spec (base : Nat) (hb2 : 2 ≤ base) (hb : base ≤ 36) (n : Nat) :
    formatNat base n ≠ [] ∧ (∀ c ∈ formatNat base n, digitVal c < base) ∧
      charsVal base (formatNat base n) = n :=
  formatNatF_spec base hb2 hb (n + 1) n (by omega)

/-- `goParseInt` on a plain (unsigned, in-range) digit string returns its
value. -/
theorem goSign_no_sign (c : Char) (rest : Str) (h1 : c ≠ '-') (h2 : c ≠ '+') :
    goSign (c :: rest) = (false, c :: rest) := by
  unfold goSign
  split
  · next heq =>
    injection heq with hc _
    exact absurd hc h1
  · next heq =>
    injection heq with hc _
    exact absurd hc h2
  · rfl

/-- `goParseInt` on a plain (unsigned, in-range) digit string returns its
value. -/
theorem goParseInt_digits (base : Nat) (s : Str) (hb2 : 2 ≤ base) (hb : base ≤ 36)
    (hne : s ≠ []) (hd : ∀ c ∈ s, digitVal c < base)
    (hrange : charsVal base s ≤ 2 ^ 63 - 1) :
    goParseInt base s = some ((charsVal base s : Nat) : Int) := by
  obtain ⟨c, rest, rfl⟩ : ∃ c rest, s = c :: rest := by
    cases s with
    | nil => exact absurd rfl hne
    | cons c rest => exact ⟨c, rest, rfl⟩
  have hc : digitVal c < base := hd c (by simp)
  have hcm : c ≠ '-' := by rintro rfl; simp [digitVal] at hc; omega
  have hcp : c ≠ '+' := by rintro rfl; simp [digitVal] at hc; omega
  unfold goParseInt
  rw [if_neg (by omega), goSign_no_sign c rest hcm hcp]
  unfold goParseDigits
  rw [if_neg hne, if_pos (by simpa [List.all_eq_true, decide_eq_true_eq] using hd)]
  simp only
  rw [if_pos hrange]
  simp

/-- C2: for every Color (8-bit channels), `newColorFromString (c.String 16) 16`
and `newColorFromString (c.String 10) 10` both succeed and reconstruct the
same four channel values, the packed word being
`alpha<<24 | blue<<16 | green<<8 | red`. -/
theorem C2_color_string_roundtrip (a b g r : Nat)
    (ha : a < 256) (hb : b < 256) (hg : g < 256) (hr : r < 256) :
    newColorFromString ((Color.mk a b g r).string 16) 16 = some (Color.mk a b g r) ∧
      newColorFromString ((Color.mk a b g r).string 10) 10 = some (Color.mk a b g r) := by
  have hword : (Color.mk a b g r).word = a * 2 ^ 24 + (b * 2 ^ 16 + (g * 2 ^ 8 + r)) :=
    Color.word_eq _ hb hg hr
  have hwlt : (Color.mk a b g r).word ≤ 2 ^ 63 - 1 := by
    rw [hword]
    simp only [show (2:Nat)^8 = 256 from rfl, show (2:Nat)^16 = 65536 from rfl,
      show (2:Nat)^24 = 16777216 from rfl, show (2:Nat)^63 - 1 = 9223372036854775807 from rfl]
    omega
  have unpack : unpackColor ((Color.mk a b g r).word : Int) = Color.mk a b g r := by
    unfold unpackColor
    rw [show (((Color.mk a b g r).word : Nat) : Int)
        = (a : Int) * 2 ^ 24 + ((b : Int) * 2 ^ 16 + ((g : Int) * 2 ^ 8 + (r : Int))) from by
      rw [hword]; push_cast; ring]
    simp only [show (2:Int)^8 = 256 from rfl, show (2:Int)^16 = 65536 from rfl,
      show (2:Int)^24 = 16777216 from rfl, Color.mk.injEq]
    refine ⟨by omega, by omega, by omega, by omega⟩
  constructor
  · obtain ⟨hne, hdig, hval⟩ := formatNat_spec 16 (by omega) (by omega) (Color.mk a b g r).word
    have hvalpad : charsVal 16 (pad 8 '0' (formatNat 16 (Color.mk a b g r).word))
        = (Color.mk a b g r).word := by
      unfold pad
      rw [charsVal_append, charsVal_replicate_zero, hval]
      ring
    have hstr : (Color.mk a b g r).string 16 = pad 8 '0' (formatNat 16 (Color.mk a b g r).word) := by
      unfold Color.string
      rw [if_pos rfl]
    rw [hstr]
    unfold newColorFromString
    rw [goParseInt_digits 16 _ (by omega) (by omega)
      (by unfold pad; simp [hne])
      (by
        intro c hc
        unfold pad at hc
        rcases List.mem_append.mp hc with h | h
        · have := List.eq_of_mem_replicate h
          subst this
          simp [digitVal]
        · exact hdig c h)
      (by rw [hvalpad]; exact hwlt)]
    rw [hvalpad, Option.map_some', unpack]
  · obtain ⟨hne, hdig, hval⟩ := formatNat_spec 10 (by omega) (by omega) (Color.mk a b g r).word
    have hstr : (Color.mk a b g r).string 10 = formatNat 10 (Color.mk a b g r).word := by
      unfold Color.string
      rw [if_neg (by decide)]
      unfold formatInt
      rw [if_neg (by simp)]
      simp
    rw [hstr]
    unfold newColorFromString
    rw [goParseInt_digits 10 _ (by omega) (by omega) hne hdig (by rw [hval]; exact hwlt)]
    rw [hval, Option.map_some', unpack]

/-- Witness for C2 at a concrete color. -/
theorem C2_witness :
    (255 < 256 ∧ 0 < 256 ∧ 128 < 256 ∧ 7 < 256) ∧
      (newColorFromString ((Color.mk 255 0 128 7).string 16) 16 = some (Color.mk 255 0 128 7) ∧
        newColorFromString ((Color.mk 255 0 128 7).string 10) 10 = some (Color.mk 255 0 128 7)) :=
  ⟨by omega, C2_color_string_roundtrip 255 0 128 7 (by omega) (by omega) (by omega) (by omega)⟩

/-! ### The data model (`Style`, `Region`, `Line`, `LineItem`, `Item`) -/

/-- `StyleAttributes` is a flat bag of ~60 optional per-format fields in the
source.  None of the verified operations inspect or modify any of them — they
are only carried around whole — so a single representative field stands for
the bag (it keeps distinct attribute bags distinguishable, e.g. a red and a
blue SSA primary colour). -/
structure StyleAttributes where
  SSAPrimaryColour : Option Color
deriving DecidableEq

/-- `Style`: identifier, inline attributes, optional parent style. -/
inductive Style where
  | mk (ID : Str) (InlineStyle : Option StyleAttributes) (parent : Option Style)

mutual

/-- Equality of styles is decidable (by hand: the automatic derivation does
not handle the nested `Option Style` field). -/
def Style.decEq : (a b : Style) → Decidable (a = b)
  | .mk i1 a1 p1, .mk i2 a2 p2 =>
    letI d3 : Decidable (p1 = p2) := Style.decEqOpt p1 p2
    decidable_of_iff (i1 = i2 ∧ a1 = a2 ∧ p1 = p2) (by rw [Style.mk.injEq])

/-- Equality of optional styles is decidable. -/
def Style.decEqOpt : (a b : Option Style) → Decidable (a = b)
  | none, none => isTrue rfl
  | none, some _ => isFalse (fun h => Option.noConfusion h)
  | some _, none => isFalse (fun h => Option.noConfusion h)
  | some x, some y =>
    match Style.decEq x y with
    | isTrue h => isTrue (congrArg some h)
    | isFalse h => isFalse (fun he => h (Option.some.inj he))

end

instance : DecidableEq Style := Style.decEq

/-- The `ID` field of a `Style`. -/
def Style.ID : Style → Str
  | .mk i _ _ => i

/-- `Region`: identifier, inline attributes, optional style reference. -/
structure Region where
  ID : Str
  InlineStyle : Option StyleAttributes
  Style : Option Style
deriving DecidableEq

/-- `LineItem`: a text fragment with optional style information. -/
structure LineItem where
  InlineStyle : Option StyleAttributes
  Style : Option Style
  Text : Str
deriving DecidableEq

/-- `Line`: a sequence of line items plus a voice name. -/
structure Line where
  Items : List LineItem
  VoiceName : Str
deriving DecidableEq

/-- `Item`: a timed cue.  `StartAt`/`EndAt` are `time.Duration`s
(nanoseconds, `Int`). -/
structure Item where
  Comments : List Str
  EndAt : Int
  InlineStyle : Option StyleAttributes
  Lines : List Line
  Region : Option Region
  StartAt : Int
  Style : Option Style
deriving DecidableEq, Inhabited

/-- `Line.String`: texts of the line's items joined by a single space. -/
def Line.string (l : Line) : Str :=
  goJoin (l.Items.map (fun i => i.Text)) " ".toList

/-- `Item.String`: the item's lines rendered and joined by `" - "`. -/
def Item.string (i : Item) : Str :=
  goJoin (i.Lines.map Line.string) " - ".toList

/-! ### `Order` (stable bubble sort by `StartAt`) -/

/-- One pass of `Order`'s inner loop: compare adjacent items, swapping when
the earlier one starts strictly later. -/
def bubblePass : List Item → List Item
  | [] => []
  | [a] => [a]
  | a :: b :: t =>
    if b.StartAt < a.StartAt then b :: bubblePass (a :: t)
    else a :: bubblePass (b :: t)

/-- Number of elements of `l` starting strictly before `a`. -/
def keyInv (a : Item) (l : List Item) : Nat :=
  (l.filter fun b => b.StartAt < a.StartAt).length

/-- Number of inversions (out-of-order pairs) of an item list; the bubble
loop's termination measure. -/
def invCount : List Item → Nat
  | [] => 0
  | a :: t => keyInv a t + invCount t

/-- A bubble pass permutes the list. -/
theorem bubblePass_perm : ∀ l : List Item, (bubblePass l).Perm l
  | [] => by simp [bubblePass]
  | [a] => by simp [bubblePass]
  | a :: b :: t => by
    unfold bubblePass
    split
    · exact (List.Perm.cons b (bubblePass_perm (a :: t))).trans (List.Perm.swap a b t)
    · exact List.Perm.cons a (bubblePass_perm (b :: t))
termination_by l => l.length

/-- `keyInv` only depends on the multiset of the list. -/
theorem keyInv_perm (a : Item) {l l' : List Item} (h : l.Perm l') : keyInv a l = keyInv a l' :=
  (h.filter _).length_eq

/-- Unfolding `keyInv` over a cons. -/
theorem keyInv_cons (a b : Item) (t : List Item) :
    keyInv a (b :: t) = (if b.StartAt < a.StartAt then 1 else 0) + keyInv a t := by
  unfold keyInv
  rw [List.filter_cons]
  by_cases h : b.StartAt < a.StartAt
  · simp [h, Nat.add_comm]
  · simp [h]

/-- Unfolding `invCount` over a cons. -/
theorem invCount_cons (a : Item) (t : List Item) :
    invCount (a :: t) = keyInv a t + invCount t := rfl

/-- A bubble pass never increases the inversion count, and strictly
decreases it whenever it changes the list. -/
theorem bubblePass_invCount : ∀ l : List Item,
    invCount (bubblePass l) ≤ invCount l ∧ (bubblePass l ≠ l → invCount (bubblePass l) < invCount l)
  | [] => by simp [bubblePass]
  | [a] => by simp [bubblePass]
  | a :: b :: t => by
    have iha := bubblePass_invCount (a :: t)
    have ihb := bubblePass_invCount (b :: t)
    unfold bubblePass
    split
    · next hlt =>
      have hk : keyInv b (bubblePass (a :: t)) = keyInv b t := by
        rw [keyInv_perm b (bubblePass_perm (a :: t)), keyInv_cons, if_neg (by omega)]
        omega
      have e1 : invCount (b :: bubblePass (a :: t))
          = keyInv b t + invCount (bubblePass (a :: t)) := by
        rw [invCount_cons, hk]
      have e2 : invCount (a :: b :: t) = 1 + keyInv a t + keyInv b t + invCount t := by
        rw [invCount_cons, invCount_cons, keyInv_cons, if_pos hlt]
        omega
      have e3 : invCount (a :: t) = keyInv a t + invCount t := invCount_cons a t
      have h1 := iha.1
      refine ⟨by omega, fun _ => by omega⟩
    · next hge =>
      have e1 : invCount (a :: bubblePass (b :: t))
          = keyInv a (b :: t) + invCount (bubblePass (b :: t)) := by
        rw [invCount_cons, keyInv_perm a (bubblePass_perm (b :: t))]
      have e2 : invCount (a :: b :: t) = keyInv a (b :: t) + invCount (b :: t) :=
        invCount_cons _ _
      have h1 := ihb.1
      refine ⟨by omega, fun hne => ?_⟩
      have htail : bubblePass (b :: t) ≠ b :: t := by
        intro he
        exact hne (by rw [he])
      have h2 := ihb.2 htail
      omega
termination_by l => l.length

/-- The `for swapped` loop of `Order`: repeat bubble passes until a pass
performs no swap.  (A pass performs no swap exactly when it returns its
input unchanged: every swap strictly decreases `invCount`.) -/
def orderLoop (l : List Item) : List Item :=
  if h : bubblePass l = l then l else orderLoop (bubblePass l)
termination_by invCount l
decreasing_by exact (bubblePass_invCount l).2 h

/-- `Order`: no-op on lists of at most one item, else the bubble loop. -/
def order (l : List Item) : List Item :=
  if l.length ≤ 1 then l else orderLoop l

/-- Ascending by start offset. -/
def sortedByStart (l : List Item) : Prop :=
  List.Pairwise (fun x y : Item => x.StartAt ≤ y.StartAt) l

/-- A list unchanged by a bubble pass is sorted. -/
theorem sorted_of_bubblePass_eq : ∀ l : List Item, bubblePass l = l → sortedByStart l
  | [] => fun _ => List.Pairwise.nil
  | [a] => fun _ => by simp [sortedByStart]
  | a :: b :: t => by
    intro h
    unfold bubblePass at h
    split at h
    · next hlt =>
      exfalso
      injection h with hab _
      rw [hab] at hlt
      omega
    · next hge =>
      injection h with _ ht
      have hs : sortedByStart (b :: t) := sorted_of_bubblePass_eq (b :: t) ht
      have hb := List.pairwise_cons.mp hs
      exact List.pairwise_cons.mpr
        ⟨fun y hy => by
          rcases List.mem_cons.mp hy with rfl | hy
          · omega
          · have := hb.1 y hy
            omega, hs⟩
termination_by l => l.length

/-- A sorted list is a fixed point of the bubble pass. -/
theorem bubblePass_eq_of_sorted : ∀ l : List Item, sortedByStart l → bubblePass l = l
  | [] => fun _ => by simp [bubblePass]
  | [a] => fun _ => by simp [bubblePass]
  | a :: b :: t => by
    intro h
    have hb := List.pairwise_cons.mp h
    have hab : a.StartAt ≤ b.StartAt := hb.1 b (by simp)
    unfold bubblePass
    rw [if_neg (by omega)]
    rw [bubblePass_eq_of_sorted (b :: t) hb.2]
termination_by l => l.length

/-- The bubble loop permutes its input. -/
theorem orderLoop_perm (l : List Item) : (orderLoop l).Perm l := by
  rw [orderLoop]
  split
  · exact .refl _
  · exact (orderLoop_perm (bubblePass l)).trans (bubblePass_perm l)
termination_by invCount l
decreasing_by next h => exact (bubblePass_invCount l).2 h

/-- The bubble loop sorts. -/
theorem orderLoop_sorted (l : List Item) : sortedByStart (orderLoop l) := by
  rw [orderLoop]
  split
  · next h => exact sorted_of_bubblePass_eq l h
  · exact orderLoop_sorted (bubblePass l)
termination_by invCount l
decreasing_by next h => exact (bubblePass_invCount l).2 h

/-- A bubble pass preserves the subsequence of items with any given start
offset (swaps only happen between different keys). -/
theorem bubblePass_filterKey (k : Int) : ∀ l : List Item,
    (bubblePass l).filter (fun it => it.StartAt == k) = l.filter (fun it => it.StartAt == k)
  | [] => by simp [bubblePass]
  | [a] => by simp [bubblePass]
  | a :: b :: t => by
    unfold bubblePass
    split
    · next hlt =>
      rw [List.filter_cons, bubblePass_filterKey k (a :: t)]
      simp only [List.filter_cons]
      by_cases hak : a.StartAt = k
      · have hbk : ¬(b.StartAt = k) := by omega
        simp [hak, hbk]
      · by_cases hbk : b.StartAt = k
        · simp [hak, hbk]
        · simp [hak, hbk]
    · next hge =>
      rw [List.filter_cons, bubblePass_filterKey k (b :: t)]
      simp only [List.filter_cons]
termination_by l => l.length

/-- The bubble loop preserves the subsequence of items with any given start
offset. -/
theorem orderLoop_filterKey (k : Int) (l : List Item) :
    (orderLoop l).filter (fun it => it.StartAt == k) = l.filter (fun it => it.StartAt == k) := by
  rw [orderLoop]
  split
  · rfl
  · rw [orderLoop_filterKey k (bubblePass l), bubblePass_filterKey]
termination_by invCount l
decreasing_by next h => exact (bubblePass_invCount l).2 h

/-- The bubble loop reaches a fixed point of the pass. -/
theorem bubblePass_orderLoop (l : List Item) : bubblePass (orderLoop l) = orderLoop l := by
  rw [orderLoop]
  split
  · next h => exact h
  · exact bubblePass_orderLoop (bubblePass l)
termination_by invCount l
decreasing_by next h => exact (bubblePass_invCount l).2 h

/-- The bubble loop is idempotent. -/
theorem orderLoop_idem (l : List Item) : orderLoop (orderLoop l) = orderLoop l := by
  conv_lhs => rw [orderLoop]
  rw [dif_pos (bubblePass_orderLoop l)]

/-- `order` permutes its input. -/
theorem order_perm (l : List Item) : (order l).Perm l := by
  unfold order
  split
  · exact .refl _
  · exact orderLoop_perm l

/-- `order` sorts by start offset. -/
theorem order_sorted (l : List Item) : sortedByStart (order l) := by
  unfold order
  split
  · next h =>
    match l, h with
    | [], _ => exact List.Pairwise.nil
    | [a], _ => simp [sortedByStart]
  · exact orderLoop_sorted l

/-- `order` preserves each equal-start subsequence (stability). -/
theorem order_filterKey (k : Int) (l : List Item) :
    (order l).filter (fun it => it.StartAt == k) = l.filter (fun it => it.StartAt == k) := by
  unfold order
  split
  · rfl
  · exact orderLoop_filterKey k l

/-- `order` is idempotent. -/
theorem order_idem (l : List Item) : order (order l) = order l := by
  by_cases h : l.length ≤ 1
  · have h0 : order l = l := by unfold order; rw [if_pos h]
    rw [h0]
    exact h0
  · have h1 : order l = orderLoop l := by unfold order; rw [if_neg h]
    have h2 : (orderLoop l).length = l.length := (orderLoop_perm l).length_eq
    rw [h1]
    unfold order
    rw [if_neg (by omega), orderLoop_idem]

/-- C3: `Order` is a stable ascending sort by `StartAt` and is idempotent:
the result is a permutation of the input sorted ascending by `StartAt`,
items with equal `StartAt` keep their relative input order (the subsequence
at each start offset is unchanged), and applying `Order` twice equals
applying it once. -/
theorem C3_order_stable_sort (l : List Item) :
    (order l).Perm l ∧ sortedByStart (order l) ∧
      (∀ k : Int, (order l).filter (fun it => it.StartAt == k)
        = l.filter (fun it => it.StartAt == k)) ∧
      order (order l) = order l :=
  ⟨order_perm l, order_sorted l, fun k => order_filterKey k l, order_idem l⟩

/-! ### `Duration` and `ForceDuration` -/

/-- `Duration`: the last item's end offset, zero for an empty document. -/
def duration (l : List Item) : Int :=
  match l.getLast? with
  | none => 0
  | some it => it.EndAt

/-- The truncation scan of `ForceDuration` when the current duration exceeds
the target: clamp the end of every item scanned before the first item whose
start is `≥ d`, and drop that item and everything after it (`break` plus
`s.Items[:lastIndex]`). -/
def truncateScan (d : Int) : List Item → List Item
  | [] => []
  | i :: t =>
    if d ≤ i.StartAt then []
    else if d < i.EndAt then { i with EndAt := d } :: truncateScan d t
    else i :: truncateScan d t

/-- The placeholder appended by `ForceDuration`: a `[d − 1ms, d]` item with
the single line `"..."`. -/
def dummyItem (d : Int) : Item :=
  { Comments := []
    EndAt := d
    InlineStyle := none
    Lines := [{ Items := [{ InlineStyle := none, Style := none, Text := "...".toList }]
                VoiceName := [] }]
    Region := none
    StartAt := d - 1000000
    Style := none }

/-- `ForceDuration`: no-op when the duration already matches; truncate when
it exceeds the target; then append the placeholder when it falls short. -/
def forceDuration (d : Int) (l : List Item) : List Item :=
  if duration l = d then l
  else
    let l1 := if d < duration l then truncateScan d l else l
    if duration l1 < d then l1 ++ [dummyItem d] else l1

/-- Every item surviving the truncation scan ends at or before the target. -/
theorem truncateScan_endAt_le (d : Int) : ∀ l : List Item, ∀ i ∈ truncateScan d l, i.EndAt ≤ d
  | [], i, hi => by simp [truncateScan] at hi
  | a :: t, i, hi => by
    unfold truncateScan at hi
    split at hi
    · simp at hi
    · split at hi
      · rcases List.mem_cons.mp hi with rfl | hi
        · simp
        · exact truncateScan_endAt_le d t i hi
      · rcases List.mem_cons.mp hi with rfl | hi
        · omega
        · exact truncateScan_endAt_le d t i hi

/-- `duration` of an append ending in a single item. -/
theorem duration_concat (l : List Item) (x : Item) : duration (l ++ [x]) = x.EndAt := by
  unfold duration
  rw [List.getLast?_concat]

/-- The truncated list never lasts beyond the target. -/
theorem duration_truncateScan_le (d : Int) (hd : 0 < d) (l : List Item) :
    duration (truncateScan d l) ≤ d := by
  unfold duration
  rcases h : (truncateScan d l).getLast? with - | it
  · show (0 : Int) ≤ d
    omega
  · show it.EndAt ≤ d
    exact truncateScan_endAt_le d l it (List.mem_of_getLast?_eq_some h)

/-- C4: for every target `d > 0` and every document ordered ascending by
`StartAt`, `ForceDuration d` makes `Duration` equal to `d`, and a second
call leaves the item sequence unchanged (idempotence). -/
theorem C4_forceDuration_idem (d : Int) (l : List Item) (hd : 0 < d)
    (hsort : sortedByStart l) :
    duration (forceDuration d l) = d ∧
      forceDuration d (forceDuration d l) = forceDuration d l := by
  have key : duration (forceDuration d l) = d := by
    unfold forceDuration
    by_cases h1 : duration l = d
    · rw [if_pos h1]
      exact h1
    · rw [if_neg h1]
      simp only
      by_cases h2 : d < duration l
      · rw [if_pos h2]
        by_cases h3 : duration (truncateScan d l) < d
        · rw [if_pos h3, duration_concat]
          rfl
        · rw [if_neg h3]
          have := duration_truncateScan_le d hd l
          omega
      · rw [if_neg h2]
        have h4 : duration l < d := by omega
        rw [if_pos h4, duration_concat]
        rfl
  refine ⟨key, ?_⟩
  rw [forceDuration]
  rw [if_pos key]

/-- A ten-second cue used by the C4 witness. -/
def c4Item : Item :=
  { Comments := [], EndAt := 10000000000, InlineStyle := none, Lines := [],
    Region := none, StartAt := 0, Style := none }

/-- Witness for C4 at a concrete document. -/
theorem C4_witness :
    ((0 : Int) < 5000000000 ∧ sortedByStart [c4Item]) ∧
      (duration (forceDuration 5000000000 [c4Item]) = 5000000000 ∧
        forceDuration 5000000000 (forceDuration 5000000000 [c4Item])
          = forceDuration 5000000000 [c4Item]) :=
  ⟨⟨by omega, by simp [sortedByStart]⟩,
    C4_forceDuration_idem 5000000000 _ (by omega) (by simp [sortedByStart])⟩

/-! ### `Subtitles` and `Merge` -/

/-- `Metadata` of a document. -/
structure Metadata where
  Comments : List Str
  Copyright : Str
  Framerate : Int
  Language : Str
  Title : Str
deriving DecidableEq

/-- `Subtitles`: the document.  The Go `map[string]*Region` /
`map[string]*Style` are modelled as association lists with unique keys (the
operations below only ever read them through key lookup and append absent
keys, so the list order only fixes one of the arbitrary Go map iteration
orders). -/
structure Subtitles where
  Items : List Item
  Metadata : Option Metadata
  Regions : List (Str × Region)
  Styles : List (Str × Style)
deriving DecidableEq

/-- `Merge`'s region loop: for each of the other document's regions, insert
it under its `ID` unless that key is already present. -/
def addAbsentRegions (cur : List (Str × Region)) : List (Str × Region) → List (Str × Region)
  | [] => cur
  | (_, r) :: rest =>
    if (cur.lookup r.ID).isSome then addAbsentRegions cur rest
    else addAbsentRegions (cur ++ [(r.ID, r)]) rest

/-- `Merge`'s style loop, identical to the region loop. -/
def addAbsentStyles (cur : List (Str × Style)) : List (Str × Style) → List (Str × Style)
  | [] => cur
  | (_, st) :: rest =>
    if (cur.lookup st.ID).isSome then addAbsentStyles cur rest
    else addAbsentStyles (cur ++ [(st.ID, st)]) rest

/-- `Merge`: append the other document's items, order, and union regions and
styles first-write-wins. -/
def merge (s other : Subtitles) : Subtitles :=
  { Items := order (s.Items ++ other.Items)
    Metadata := s.Metadata
    Regions := addAbsentRegions s.Regions other.Regions
    Styles := addAbsentStyles s.Styles other.Styles }

/-- Lookup in an append resolves in the left part when the key is there. -/
theorem lookup_append_left {β : Type} (l1 l2 : List (Str × β)) (k : Str)
    (h : (l1.lookup k).isSome) : (l1 ++ l2).lookup k = l1.lookup k := by
  induction l1 with
  | nil => simp [List.lookup] at h
  | cons e t ih =>
    rcases e with ⟨a, b⟩
    simp only [List.cons_append, List.lookup]
    split
    · rfl
    · next hne =>
      apply ih
      simpa [List.lookup, hne] using h

/-- Lookup in an append falls through to the right part when the key is
absent on the left. -/
theorem lookup_append_right {β : Type} (l1 l2 : List (Str × β)) (k : Str)
    (h : l1.lookup k = none) : (l1 ++ l2).lookup k = l2.lookup k := by
  induction l1 with
  | nil => simp
  | cons e t ih =>
    rcases e with ⟨a, b⟩
    simp only [List.cons_append, List.lookup]
    split
    · next heq =>
      simp [List.lookup, heq] at h
    · next hne =>
      apply ih
      simpa [List.lookup, hne] using h

/-- Keys present in the current map are never overwritten by the region
loop. -/
theorem addAbsentRegions_kept (k : Str) :
    ∀ (others : List (Str × Region)) (cur : List (Str × Region)),
      (cur.lookup k).isSome → (addAbsentRegions cur others).lookup k = cur.lookup k
  | [], cur, _ => rfl
  | (kk, r) :: rest, cur, h => by
    unfold addAbsentRegions
    split
    · exact addAbsentRegions_kept k rest cur h
    · rw [addAbsentRegions_kept k rest _ (by rw [lookup_append_left _ _ _ h]; exact h)]
      exact lookup_append_left _ _ _ h

/-- Keys absent from the current map are looked up in the other document's
map (whose entries are keyed by their region's `ID`). -/
theorem addAbsentRegions_absent (k : Str) :
    ∀ (others : List (Str × Region)) (cur : List (Str × Region)),
      cur.lookup k = none → (∀ p ∈ others, (p.2 : Region).ID = p.1) →
      (addAbsentRegions cur others).lookup k = others.lookup k
  | [], cur, h, _ => by simpa [List.lookup] using h
  | (kk, r) :: rest, cur, h, hwf => by
    have hid : r.ID = kk := hwf (kk, r) (by simp)
    unfold addAbsentRegions
    by_cases hk : k = kk
    · subst hk
      rw [if_neg (by rw [hid, h]; simp)]
      have hcur' : ((cur ++ [(r.ID, r)]).lookup k).isSome := by
        rw [lookup_append_right _ _ _ h, hid]
        simp [List.lookup]
      rw [addAbsentRegions_kept k rest _ hcur', lookup_append_right _ _ _ h, hid]
      simp [List.lookup]
    · have hrhs : ((kk, r) :: rest).lookup k = rest.lookup k := by
        simp only [List.lookup]
        rw [show (k == kk) = false from by simpa using hk]
      rw [hrhs]
      split
      · exact addAbsentRegions_absent k rest cur h (fun p hp => hwf p (by simp [hp]))
      · refine addAbsentRegions_absent k rest _ ?_ (fun p hp => hwf p (by simp [hp]))
        rw [lookup_append_right _ _ _ h, hid]
        simp only [List.lookup]
        rw [show (k == kk) = false from by simpa using hk]

/-- Same as `addAbsentRegions_kept`, for styles. -/
theorem addAbsentStyles_kept (k : Str) :
    ∀ (others : List (Str × Style)) (cur : List (Str × Style)),
      (cur.lookup k).isSome → (addAbsentStyles cur others).lookup k = cur.lookup k
  | [], cur, _ => rfl
  | (kk, st) :: rest, cur, h => by
    unfold addAbsentStyles
    split
    · exact addAbsentStyles_kept k rest cur h
    · rw [addAbsentStyles_kept k rest _ (by rw [lookup_append_left _ _ _ h]; exact h)]
      exact lookup_append_left _ _ _ h

/-- Same as `addAbsentRegions_absent`, for styles. -/
theorem addAbsentStyles_absent (k : Str) :
    ∀ (others : List (Str × Style)) (cur : List (Str × Style)),
      cur.lookup k = none → (∀ p ∈ others, (p.2 : Style).ID = p.1) →
      (addAbsentStyles cur others).lookup k = others.lookup k
  | [], cur, h, _ => by simpa [List.lookup] using h
  | (kk, st) :: rest, cur, h, hwf => by
    have hid : st.ID = kk := hwf (kk, st) (by simp)
    unfold addAbsentStyles
    by_cases hk : k = kk
    · subst hk
      rw [if_neg (by rw [hid, h]; simp)]
      have hcur' : ((cur ++ [(st.ID, st)]).lookup k).isSome := by
        rw [lookup_append_right _ _ _ h, hid]
        simp [List.lookup]
      rw [addAbsentStyles_kept k rest _ hcur', lookup_append_right _ _ _ h, hid]
      simp [List.lookup]
    · have hrhs : ((kk, st) :: rest).lookup k = rest.lookup k := by
        simp only [List.lookup]
        rw [show (k == kk) = false from by simpa using hk]
      rw [hrhs]
      split
      · exact addAbsentStyles_absent k rest cur h (fun p hp => hwf p (by simp [hp]))
      · refine addAbsentStyles_absent k rest _ ?_ (fun p hp => hwf p (by simp [hp]))
        rw [lookup_append_right _ _ _ h, hid]
        simp only [List.lookup]
        rw [show (k == kk) = false from by simpa using hk]

/-- C9: `Merge` appends the other document's items to the receiver's and
orders the result, and unions the other document's regions and styles into
the receiver's maps first-write-wins: keys present in the receiver keep the
receiver's entry, absent keys are copied from the other document (whose map
entries are keyed by their value's `ID`, as Go map well-formedness
guarantees). -/
theorem C9_merge_first_write_wins (s other : Subtitles)
    (hwfR : ∀ p ∈ other.Regions, (p.2 : Region).ID = p.1)
    (hwfS : ∀ p ∈ other.Styles, (p.2 : Style).ID = p.1) :
    (merge s other).Items = order (s.Items ++ other.Items) ∧
      (∀ k : Str, (s.Regions.lookup k).isSome →
        (merge s other).Regions.lookup k = s.Regions.lookup k) ∧
      (∀ k : Str, s.Regions.lookup k = none →
        (merge s other).Regions.lookup k = other.Regions.lookup k) ∧
      (∀ k : Str, (s.Styles.lookup k).isSome →
        (merge s other).Styles.lookup k = s.Styles.lookup k) ∧
      (∀ k : Str, s.Styles.lookup k = none →
        (merge s other).Styles.lookup k = other.Styles.lookup k) :=
  ⟨rfl,
    fun k h => addAbsentRegions_kept k other.Regions s.Regions h,
    fun k h => addAbsentRegions_absent k other.Regions s.Regions h hwfR,
    fun k h => addAbsentStyles_kept k other.Styles s.Styles h,
    fun k h => addAbsentStyles_absent k other.Styles s.Styles h hwfS⟩

/-- A red style and a blue style named `s1`, for the C9 scenario witness. -/
def styleRed : Style :=
  .mk "s1".toList (some { SSAPrimaryColour := some (Color.mk 0 0 0 255) }) none

/-- The competing blue definition of `s1`. -/
def styleBlue : Style :=
  .mk "s1".toList (some { SSAPrimaryColour := some (Color.mk 0 255 0 0) }) none

/-- Witness for C9: merging a document carrying `"s1" = red` with one
carrying `"s1" = blue` keeps the red definition. -/
theorem C9_witness :
    ((∀ p ∈ [("s1".toList, styleBlue)], (p.2 : Style).ID = p.1) ∧
        (∀ p ∈ ([] : List (Str × Region)), (p.2 : Region).ID = p.1)) ∧
      (merge { Items := [], Metadata := none, Regions := [],
               Styles := [("s1".toList, styleRed)] }
             { Items := [], Metadata := none, Regions := [],
               Styles := [("s1".toList, styleBlue)] }).Styles.lookup "s1".toList
        = some styleRed := by
  constructor
  · exact ⟨by intro p hp; simp at hp; rw [hp]; rfl, by intro p hp; simp at hp⟩
  · have h := (C9_merge_first_write_wins
      { Items := [], Metadata := none, Regions := [], Styles := [("s1".toList, styleRed)] }
      { Items := [], Metadata := none, Regions := [], Styles := [("s1".toList, styleBlue)] }
      (by intro p hp; simp at hp)
      (by intro p hp; simp at hp; rw [hp]; rfl)).2.2.2.1
    rw [h "s1".toList (by simp [List.lookup])]
    simp [List.lookup]

/-! ### IEEE-754 double model for `math.Pow10` and `fmt.Sprintf("%.*f", _)` -/

/-- Floor of the base-2 logarithm, with explicit fuel (structural, so the
kernel can evaluate it; fuel 2100 covers everything below `2^2100`, far
beyond any value the source computes). -/
def natLog2F : Nat → Nat → Nat
  | 0, _ => 0
  | fuel + 1, n => if n ≤ 1 then 0 else natLog2F fuel (n / 2) + 1

/-- Round `a / b` to the nearest integer, ties to even (IEEE-754 default
rounding). -/
def roundNearEven (a b : Nat) : Nat :=
  let q := a / b
  let r := a % b
  if 2 * r < b then q
  else if b < 2 * r then q + 1
  else if q % 2 = 0 then q else q + 1

/-- A non-negative IEEE-754 double `m * 2 ^ e`, normalized
(`2^52 ≤ m < 2^53`, or `m = 0`).  The values the source computes stay well
inside the normal range, so subnormals and infinities never arise here. -/
structure F64 where
  m : Nat
  e : Int
deriving DecidableEq

/-- Mantissa of `num / den` scaled by `2 ^ (-e)`, rounded to nearest even. -/
def scaledMant (num den : Nat) (e : Int) : Nat :=
  if 0 ≤ e then roundNearEven num (den * 2 ^ e.toNat)
  else roundNearEven (num * 2 ^ (-e).toNat) den

/-- The IEEE-754 double nearest to `num / den` (round to nearest, ties to
even): pick the exponent from the integer logs, then correct it (at most
two steps are ever needed) until the rounded mantissa is normalized. -/
def roundRatF64 (num den : Nat) : F64 :=
  if num = 0 ∨ den = 0 then ⟨0, 0⟩
  else
    let e0 : Int := (natLog2F 2100 num : Int) - natLog2F 2100 den - 52
    let fix : F64 → F64 := fun f =>
      if f.m < 2 ^ 52 then ⟨scaledMant num den (f.e - 1), f.e - 1⟩
      else if 2 ^ 53 ≤ f.m then ⟨scaledMant num den (f.e + 1), f.e + 1⟩
      else f
    fix (fix (fix ⟨scaledMant num den e0, e0⟩))

/-- The double nearest to a natural number. -/
def roundNatF64 (n : Nat) : F64 := roundRatF64 n 1

/-- Correctly rounded product of two doubles. -/
def mulF64 (a b : F64) : F64 :=
  if a.m = 0 ∨ b.m = 0 then ⟨0, 0⟩
  else
    let p := roundNatF64 (a.m * b.m)
    ⟨p.m, p.e + a.e + b.e⟩

/-- `int(f)` for a non-negative double: truncation toward zero. -/
def truncF64 (f : F64) : Int :=
  if 0 ≤ f.e then ((f.m * 2 ^ f.e.toNat : Nat) : Int)
  else ((f.m / 2 ^ (-f.e).toNat : Nat) : Int)

/-- `math.Pow10`'s small table, the literal constants
`1e0, 1e1, …, 1e31` of the Go source: the doubles nearest those powers
(verified against `roundNatF64` in `pow10tab_spec`). -/
def pow10tab (k : Nat) : F64 :=
  [(⟨4503599627370496, -52⟩ : F64), ⟨5629499534213120, -49⟩,
    ⟨7036874417766400, -46⟩, ⟨8796093022208000, -43⟩,
    ⟨5497558138880000, -39⟩, ⟨6871947673600000, -36⟩,
    ⟨8589934592000000, -33⟩, ⟨5368709120000000, -29⟩,
    ⟨6710886400000000, -26⟩, ⟨8388608000000000, -23⟩,
    ⟨5242880000000000, -19⟩, ⟨6553600000000000, -16⟩,
    ⟨8192000000000000, -13⟩, ⟨5120000000000000, -9⟩,
    ⟨6400000000000000, -6⟩, ⟨8000000000000000, -3⟩,
    ⟨5000000000000000, 1⟩, ⟨6250000000000000, 4⟩,
    ⟨7812500000000000, 7⟩, ⟨4882812500000000, 11⟩,
    ⟨6103515625000000, 14⟩, ⟨7629394531250000, 17⟩,
    ⟨4768371582031250, 21⟩, ⟨5960464477539062, 24⟩,
    ⟨7450580596923828, 27⟩, ⟨4656612873077393, 31⟩,
    ⟨5820766091346741, 34⟩, ⟨7275957614183426, 37⟩,
    ⟨4547473508864641, 41⟩, ⟨5684341886080801, 44⟩,
    ⟨7105427357601002, 47⟩, ⟨8881784197001252, 50⟩].getD k ⟨0, 0⟩

/-- `math.Pow10`'s large table, the literal constants
`1e0, 1e32, …, 1e288` of the Go source: the doubles nearest those powers
(verified against `roundNatF64` in `pow10postab32_spec`). -/
def pow10postab32 (j : Nat) : F64 :=
  [(⟨4503599627370496, -52⟩ : F64), ⟨5551115123125783, 54⟩,
    ⟨6842277657836021, 160⟩, ⟨8433758354584419, 266⟩,
    ⟨5197704882822450, 373⟩, ⟨6406665904585923, 479⟩,
    ⟨7896825413969131, 585⟩, ⟨4866794409715609, 692⟩,
    ⟨5998787255582524, 798⟩, ⟨7394076163542342, 904⟩].getD j ⟨0, 0⟩

set_option maxRecDepth 10000 in
/-- The small table holds exactly the nearest doubles of `10^0 .. 10^31`. -/
theorem pow10tab_spec : ∀ k : Nat, k < 32 → pow10tab k = roundNatF64 (10 ^ k) := by decide

set_option maxRecDepth 100000 in
/-- The large table holds exactly the nearest doubles of `10^(32*j)` for
`j < 10`. -/
theorem pow10postab32_spec : ∀ j : Nat, j < 10 →
    pow10postab32 j = roundNatF64 (10 ^ (32 * j)) := by decide

/-- `int(math.Pow10(m))`, as `parseDuration` computes its millisecond
multiplier:
* `m < 0`: `Pow10` returns a float in `[0, 1)` (possibly subnormal), whose
  conversion to `int` truncates to 0;
* `0 ≤ m ≤ 308`: `Pow10` returns `pow10postab32[m/32] * pow10tab[m%32]`
  (one correctly rounded multiplication of two table doubles); when its
  truncation fits `int64` the conversion is that truncation, otherwise the
  conversion overflows — on amd64 (`cvttsd2si`) it yields `math.MinInt64`
  (this is the implementation-specific case of Go's float-to-int
  conversion; arm64 would saturate to `math.MaxInt64` instead — the
  theorems below follow the amd64 behaviour);
* `m > 308`: `Pow10` returns `+Inf`, whose amd64 conversion is likewise
  `math.MinInt64`. -/
def intPow10 (m : Int) : Int :=
  if m < 0 then 0
  else if m ≤ 308 then
    let t := truncF64 (mulF64 (pow10postab32 (m.toNat / 32)) (pow10tab (m.toNat % 32)))
    if t < 2 ^ 63 then t else -(2 ^ 63)
  else -(2 ^ 63)

/-- `fmt.Sprintf("%.*f", x)` for a non-negative double `x` (always below 10
here): the exact value of the double rounded to `n` decimal places, ties to
even, with no decimal point when `n = 0`. -/
def sprintfFixed (f : F64) (n : Nat) : Str :=
  let r : Nat :=
    if 0 ≤ f.e then f.m * 2 ^ f.e.toNat * 10 ^ n
    else roundNearEven (f.m * 10 ^ n) (2 ^ (-f.e).toNat)
  if n = 0 then formatNat 10 r
  else formatNat 10 (r / 10 ^ n) ++ '.' :: pad n '0' (formatNat 10 (r % 10 ^ n))

/-- The float text `fmt.Sprintf("%.*f", float64(ms)/float64(1000))` of
`formatDuration` (`ms` is the millisecond count; the float division of the
two exactly-represented operands is correctly rounded, i.e. the nearest
double of `ms/1000`). -/
def goSprintfMs (ms : Int) (n : Nat) : Str :=
  (if ms < 0 then ['-'] else []) ++ sprintfFixed (roundRatF64 ms.natAbs 1000) n

/-! ### The duration codec (`formatDuration`, `parseDuration`) -/

/-- `formatDuration`.  Durations divide with Go's truncated division
(`Int.div` / `Int.mod`, what `/` and `%` mean on Go's `int64`).  The final
step takes `Sprintf("%.*f", …)[2:]`; when the rendered float text is
shorter than two characters (exactly the case `numberOfMillisecondDigits =
0`, where it is `"0"` or `"1"`) the Go slice expression panics with a
bounds error — modelled as `none`. -/
def formatDuration (i : Int) (millisecondSep : Str) (numberOfMillisecondDigits : Nat) :
    Option Str :=
  let hours := i.div 3600000000000
  let n1 := i.mod 3600000000000
  let minutes := n1.div 60000000000
  let n2 := i.mod 60000000000
  let seconds := n2.div 1000000000
  let n3 := i.mod 1000000000
  let s :=
    (if hours < 10 then ['0'] else []) ++ formatInt 10 hours ++ [':'] ++
    (if minutes < 10 then ['0'] else []) ++ formatInt 10 minutes ++ [':'] ++
    (if seconds < 10 then ['0'] else []) ++ formatInt 10 seconds ++ millisecondSep
  let frac := goSprintfMs (n3.div 1000000) numberOfMillisecondDigits
  if frac.length < 2 then none else some (s ++ frac.drop 2)

/-- The error values `parseDuration` can produce, each carrying the
offending text exactly as the Go error messages do. -/
inductive GoErr where
  /-- `"astisub: Invalid number of millisecond digits detected in %s"`
  (carrying the whole input). -/
  | invalidMsDigits (input : Str)
  /-- `"astisub: atoi of %s failed"` (carrying the offending token). -/
  | atoiFailed (token : Str)
  /-- `"astisub: No hours, minutes or seconds detected in %s"`. -/
  | noHMS (input : Str)
deriving DecidableEq

/-- Equality of `Except` results is decidable (needed to evaluate concrete
parses inside proofs). -/
instance {ε α : Type} [DecidableEq ε] [DecidableEq α] : DecidableEq (Except ε α) := fun a b =>
  match a, b with
  | .ok x, .ok y =>
    if h : x = y then isTrue (by rw [h]) else isFalse (fun hc => h (Except.ok.inj hc))
  | .error x, .error y =>
    if h : x = y then isTrue (by rw [h]) else isFalse (fun hc => h (Except.error.inj hc))
  | .ok _, .error _ => isFalse (fun hc => Except.noConfusion hc)
  | .error _, .ok _ => isFalse (fun hc => Except.noConfusion hc)

/-- Go's `int64` wrap-around: the unique representative of `x` modulo
`2^64` in `[-2^63, 2^63)`.  Every arithmetic operation the source performs
on `int` / `time.Duration` values is 64-bit two's complement, i.e. its
exact integer result passed through `wrap64`. -/
def wrap64 (x : Int) : Int := (x + 2 ^ 63) % 2 ^ 64 - 2 ^ 63

/-- Inside the `int64` range the wrap is the identity. -/
theorem wrap64_eq_self (x : Int) (h0 : -(2 ^ 63) ≤ x) (h1 : x < 2 ^ 63) : wrap64 x = x := by
  unfold wrap64
  omega

/-- The wrap always lands in the `int64` range. -/
theorem wrap64_bounds (x : Int) : -(2 ^ 63) ≤ wrap64 x ∧ wrap64 x < 2 ^ 63 := by
  unfold wrap64
  omega

/-- The output expression `time.Duration(milliseconds)*time.Millisecond +
time.Duration(seconds)*time.Second + time.Duration(minutes)*time.Minute +
time.Duration(hours)*time.Hour`, with every multiplication and addition
wrapping as Go's `int64` does. -/
def goDurSum (milliseconds seconds minutes hours : Int) : Int :=
  wrap64 (wrap64 (wrap64 (wrap64 (milliseconds * 1000000) + wrap64 (seconds * 1000000000))
    + wrap64 (minutes * 60000000000)) + wrap64 (hours * 3600000000000))

/-- With zero seconds, minutes and hours the sum is just the wrapped
millisecond term. -/
theorem goDurSum_ms (ms : Int) : goDurSum ms 0 0 0 = wrap64 (ms * 1000000) := by
  have hz : ∀ y : Int, wrap64 (0 * y) = 0 := by
    intro y
    rw [Int.zero_mul]
    unfold wrap64
    omega
  have hb := wrap64_bounds (ms * 1000000)
  have hself : wrap64 (wrap64 (ms * 1000000)) = wrap64 (ms * 1000000) :=
    wrap64_eq_self _ hb.1 hb.2
  unfold goDurSum
  rw [hz, hz, hz, Int.add_zero, Int.add_zero, Int.add_zero, hself, hself, hself]

/-- The hours/minutes/seconds tail of `parseDuration`, after the
colon-split produced the (possibly empty) hours part and the minutes and
seconds parts.  The `hours` variable stays `0` when there is no hours
part. -/
def parseHMSParts (milliseconds : Int) (partHours partMinutes partSeconds : Str) :
    Except GoErr Int :=
  match goAtoi (goTrimSpace partSeconds) with
  | none => .error (.atoiFailed (goTrimSpace partSeconds))
  | some seconds =>
    match goAtoi (goTrimSpace partMinutes) with
    | none => .error (.atoiFailed (goTrimSpace partMinutes))
    | some minutes =>
      if 0 < partHours.length then
        match goAtoi (goTrimSpace partHours) with
        | none => .error (.atoiFailed (goTrimSpace partHours))
        | some hours => .ok (goDurSum milliseconds seconds minutes hours)
      else
        .ok (goDurSum milliseconds seconds minutes 0)

/-- The time-of-day half of `parseDuration`: split on `":"` into two
(minutes:seconds) or three (hours:minutes:seconds) parts; any other count
is an error carrying the original input. -/
def parseTimePart (orig : Str) (milliseconds : Int) (s : Str) : Except GoErr Int :=
  let parts := goSplit (goTrimSpace s) [':']
  if parts.length = 2 then
    parseHMSParts milliseconds [] (parts.getD 0 []) (parts.getD 1 [])
  else if parts.length = 3 then
    parseHMSParts milliseconds (parts.getD 0 []) (parts.getD 1 []) (parts.getD 2 [])
  else .error (.noHMS orig)

/-- `parseDuration`: split off the trailing fractional segment on the
millisecond separator (when present), check it has at most 3 characters,
parse it and scale it by `int(math.Pow10(digits - len(segment)))` — a
wrapping `int64` multiplication — then parse the remaining time-of-day
text. -/
def parseDuration (i millisecondSep : Str) (numberOfMillisecondDigits : Nat) :
    Except GoErr Int :=
  let parts := goSplit i millisecondSep
  if 2 ≤ parts.length then
    let s0 := goTrimSpace (parts.getLastD [])
    if 3 < s0.length then .error (.invalidMsDigits i)
    else
      match goAtoi s0 with
      | none => .error (.atoiFailed s0)
      | some v =>
        parseTimePart i (wrap64 (v * intPow10 ((numberOfMillisecondDigits : Int) - s0.length)))
          (goJoin parts.dropLast millisecondSep)
  else parseTimePart i 0 i

/-- `formatNatF` never returns an empty string. -/
theorem formatNatF_ne_nil : ∀ (fuel base n : Nat), formatNatF fuel base n ≠ []
  | 0, _, _ => by simp [formatNatF]
  | fuel + 1, base, n => by
    show (if n < base ∨ base < 2 then [digitChar n]
      else formatNatF fuel base (n / base) ++ [digitChar (n % base)]) ≠ []
    split
    · simp
    · simp

/-- `formatNat` never returns an empty string. -/
theorem formatNat_ne_nil (base n : Nat) : formatNat base n ≠ [] :=
  formatNatF_ne_nil (n + 1) base n

/-- A string of shape `A ++ c :: B` with `A` non-empty has length at least
two. -/
theorem length_append_cons_two {A B : Str} {c : Char} (hA : A ≠ []) :
    ¬(A ++ c :: B).length < 2 := by
  cases A with
  | nil => exact absurd rfl hA
  | cons a as =>
    simp [List.length_append]
    omega

set_option maxRecDepth 100000 in
/-- For `n = 0` the rendered sub-second float text is a single character
(`"0"` or `"1"`), so `formatDuration`'s `[2:]` slice faults. -/
theorem sprintfFixed_zero_short : ∀ k : Nat, k < 1000 →
    (sprintfFixed (roundRatF64 k 1000) 0).length < 2 := by decide

set_option maxRecDepth 100000 in
/-- For three digits, the rendered float text of `k/1000` (k a millisecond
count) is exactly `"0."` followed by `k` zero-padded to three digits: the
nearest double of `k/1000` is within `2^-53` of it, so rounding back to
three decimal places recovers `k` exactly. -/
theorem sprintfFixed_three : ∀ k : Nat, k < 1000 →
    sprintfFixed (roundRatF64 k 1000) 3 = '0' :: '.' :: pad 3 '0' (formatNat 10 k) := by
  decide

/-- For any positive digit count the rendered float text has at least an
integer digit, a dot, and a fractional digit. -/
theorem sprintfFixed_pos_long (f : F64) (m : Nat) (hm : 0 < m) :
    ¬(sprintfFixed f m).length < 2 := by
  simp only [sprintfFixed]
  rw [if_neg (by omega)]
  exact length_append_cons_two (formatNat_ne_nil _ _)

/-- C10: `formatDuration` is total (returns a string rather than faulting)
for every non-negative duration exactly when the number of millisecond
digits is at least 1; for zero digits the fractional-slice step faults. -/
theorem C10_formatDuration_total (d : Int) (sep : Str) (n : Nat) (hd : 0 ≤ d) :
    (formatDuration d sep n).isSome ↔ 1 ≤ n := by
  obtain ⟨a, rfl⟩ : ∃ a : Nat, d = (a : Int) := ⟨d.toNat, (Int.toNat_of_nonneg hd).symm⟩
  have hms : (Int.mod (a : Int) 1000000000).div 1000000
      = ((a % 1000000000 / 1000000 : Nat) : Int) := rfl
  have hlt : a % 1000000000 / 1000000 < 1000 := by omega
  simp only [formatDuration]
  rw [hms]
  have hfrac : goSprintfMs ((a % 1000000000 / 1000000 : Nat) : Int) n
      = sprintfFixed (roundRatF64 (a % 1000000000 / 1000000) 1000) n := by
    unfold goSprintfMs
    rw [if_neg (by omega), Int.natAbs_ofNat]
    simp
  rw [hfrac]
  rcases Nat.eq_zero_or_pos n with rfl | hn
  · rw [if_pos (sprintfFixed_zero_short _ hlt)]
    simp
  · rw [if_neg (sprintfFixed_pos_long _ n hn)]
    simpa using hn

/-- Witness for C10 at a template duration. -/
theorem C10_witness :
    (0 : Int) ≤ 61500000000 ∧
      ((formatDuration 61500000000 ",".toList 3).isSome ↔ 1 ≤ 3) :=
  ⟨by omega, C10_formatDuration_total 61500000000 ",".toList 3 (by omega)⟩

/-! ### Recovering the parts of a joined string from `goSplit` -/

/-- Decimal digit test ('0'..'9'). -/
def isDigitB (c : Char) : Bool := decide ('0' ≤ c ∧ c ≤ '9')

/-- Character of a time-of-day text: digit or colon. -/
def isTimeChar (c : Char) : Bool := isDigitB c || c == ':'

/-- A separator whose characters all fail `P` cannot begin at a character
satisfying `P`. -/
theorem isPrefixOf_false_head (sep : Str) (c : Char) (t : Str) (P : Char → Bool)
    (hsP : ∀ x ∈ sep, P x = false) (hc : P c = true) (hsep : sep ≠ []) :
    sep.isPrefixOf (c :: t) = false := by
  cases sep with
  | nil => exact absurd rfl hsep
  | cons s0 s' =>
    have h0 : P s0 = false := hsP s0 (by simp)
    have hne : (s0 == c) = false := by
      rw [beq_eq_false_iff_ne]
      rintro rfl
      rw [hc] at h0
      exact Bool.noConfusion h0
    simp [List.isPrefixOf, hne]

/-- Every list is a prefix of itself followed by anything. -/
theorem isPrefixOf_append_self : ∀ (s t : Str), s.isPrefixOf (s ++ t) = true
  | [], _ => by simp [List.isPrefixOf]
  | c :: s', t => by
    simp [List.isPrefixOf, isPrefixOf_append_self s' t]

/-- Unfolding `goSplitAux` at a separator occurrence. -/
theorem goSplitAux_pos (sep s acc : Str) (h1 : sep ≠ []) (h2 : sep.isPrefixOf s) :
    goSplitAux sep s acc = acc :: goSplitAux sep (s.drop sep.length) [] := by
  rw [goSplitAux, dif_pos ⟨h1, h2⟩]

/-- Unfolding `goSplitAux` at an ordinary character. -/
theorem goSplitAux_cons (sep : Str) (c : Char) (rest acc : Str)
    (h : ¬(sep ≠ [] ∧ sep.isPrefixOf (c :: rest) = true)) :
    goSplitAux sep (c :: rest) acc = goSplitAux sep rest (acc ++ [c]) := by
  rw [goSplitAux, dif_neg h]

/-- Unfolding `goSplitAux` at the end of the string. -/
theorem goSplitAux_nil (sep acc : Str) (h : ¬(sep ≠ [] ∧ sep.isPrefixOf [] = true)) :
    goSplitAux sep [] acc = [acc] := by
  rw [goSplitAux, dif_neg h]

/-- The tail of a joined parts list: each remaining part preceded by the
separator. -/
def joinTail (sep : Str) : List Str → Str
  | [] => []
  | q :: r => sep ++ q ++ joinTail sep r

/-- `goJoin` in head/tail form. -/
theorem goJoin_cons (sep x : Str) (rest : List Str) :
    goJoin (x :: rest) sep = x ++ joinTail sep rest := by
  induction rest generalizing x with
  | nil => simp [goJoin, joinTail]
  | cons y r ih =>
    rw [show goJoin (x :: y :: r) sep = x ++ sep ++ goJoin (y :: r) sep from rfl, ih y]
    simp [joinTail, List.append_assoc]

/-- The splitting scan recovers the parts of a joined string whenever the
parts' characters all satisfy a predicate that every character of the
(non-empty) separator fails: inside a part the separator can never start,
and at each boundary it matches and is skipped whole. -/
theorem goSplitAux_join (P : Char → Bool) (sep : Str) (hsep : sep ≠ [])
    (hsP : ∀ x ∈ sep, P x = false) :
    ∀ (part : Str) (parts : List Str) (acc : Str),
      (∀ c ∈ part, P c = true) → (∀ q ∈ parts, ∀ c ∈ q, P c = true) →
      goSplitAux sep (part ++ joinTail sep parts) acc = (acc ++ part) :: parts
  | c :: part', parts, acc, hpart, hparts => by
    rw [List.cons_append]
    rw [goSplitAux_cons sep c _ acc (by
      rw [isPrefixOf_false_head sep c _ P hsP (hpart c (by simp)) hsep]
      simp)]
    rw [goSplitAux_join P sep hsep hsP part' parts (acc ++ [c])
      (fun x hx => hpart x (by simp [hx])) hparts]
    simp
  | [], [], acc, _, _ => by
    rw [show ([] : Str) ++ joinTail sep [] = [] from rfl]
    rw [goSplitAux_nil sep acc (by
      cases sep with
      | nil => exact absurd rfl hsep
      | cons s0 s' => simp [List.isPrefixOf])]
    simp
  | [], q :: r, acc, _, hparts => by
    have hshape : ([] : Str) ++ joinTail sep (q :: r) = sep ++ (q ++ joinTail sep r) := by
      simp [joinTail, List.append_assoc]
    rw [hshape]
    rw [goSplitAux_pos sep _ acc hsep (isPrefixOf_append_self sep _)]
    rw [List.drop_left' rfl]
    rw [goSplitAux_join P sep hsep hsP q r []
      (hparts q (by simp)) (fun p hp => hparts p (by simp [hp]))]
    simp
termination_by part parts _ => part.length + (joinTail sep parts).length
decreasing_by
  · simp only [List.length_cons]
    omega
  · have hl : 0 < sep.length := List.length_pos.mpr hsep
    simp only [joinTail, List.length_append, List.length_nil]
    omega

/-- `goSplit` recovers the parts of a joined string. -/
theorem goSplit_join (P : Char → Bool) (sep : Str) (hsep : sep ≠ [])
    (hsP : ∀ x ∈ sep, P x = false) (part : Str) (parts : List Str)
    (hpart : ∀ c ∈ part, P c = true) (hparts : ∀ q ∈ parts, ∀ c ∈ q, P c = true) :
    goSplit (goJoin (part :: parts) sep) sep = part :: parts := by
  unfold goSplit
  rw [if_neg hsep, goJoin_cons]
  simpa using goSplitAux_join P sep hsep hsP part parts [] hpart hparts

/-- Dropping no whitespace from a whitespace-free string. -/
theorem dropWhile_no_space (s : Str) (h : ∀ c ∈ s, goIsSpace c = false) :
    s.dropWhile goIsSpace = s := by
  cases s with
  | nil => rfl
  | cons c t =>
    rw [List.dropWhile_cons, if_neg (by rw [h c (by simp)]; simp)]

/-- `strings.TrimSpace` leaves a whitespace-free string unchanged. -/
theorem goTrimSpace_id (s : Str) (h : ∀ c ∈ s, goIsSpace c = false) :
    goTrimSpace s = s := by
  unfold goTrimSpace
  rw [dropWhile_no_space s h,
    dropWhile_no_space s.reverse (fun c hc => h c (List.mem_reverse.mp hc)),
    List.reverse_reverse]

/-- Digits and colons are not white space. -/
theorem timeChar_not_space (c : Char) (h : isTimeChar c = true) : goIsSpace c = false := by
  simp only [isTimeChar, Bool.or_eq_true, beq_iff_eq] at h
  have hb : 48 ≤ c.toNat ∧ c.toNat ≤ 58 := by
    rcases h with h1 | h1
    · have h2 : '0' ≤ c ∧ c ≤ '9' := of_decide_eq_true h1
      have h3 : 48 ≤ c.toNat := h2.1
      have h4 : c.toNat ≤ 57 := h2.2
      omega
    · subst h1
      exact ⟨by decide, by decide⟩
  rw [Bool.eq_false_iff]
  intro hcon
  simp only [goIsSpace] at hcon
  simp at hcon
  omega

/-! ### The duration round trip at three millisecond digits -/

/-- One zero-padded time segment of `formatDuration`
(`if v < 10 { s += "0" }; s += strconv.Itoa(v)`). -/
def segText (v : Nat) : Str := (if v < 10 then ['0'] else []) ++ formatNat 10 v

/-- A character with digit value below 10 is a decimal digit (Bool form). -/
theorem digitB_of_val (c : Char) (h : digitVal c < 10) : isDigitB c = true :=
  decide_eq_true (digitVal_lt_ten c h)

/-- A decimal digit has digit value below 10. -/
theorem val_lt_of_digitB (c : Char) (h : isDigitB c = true) : digitVal c < 10 := by
  have h2 : '0' ≤ c ∧ c ≤ '9' := of_decide_eq_true h
  unfold digitVal
  rw [if_pos h2]
  have h4 : c.toNat ≤ 57 := h2.2
  omega

/-- All characters of a segment text are digits. -/
theorem segText_digits (v : Nat) : ∀ c ∈ segText v, isDigitB c = true := by
  intro c hc
  unfold segText at hc
  rcases List.mem_append.mp hc with h | h
  · split at h
    · simp only [List.mem_singleton] at h
      subst h
      decide
    · simp at h
  · exact digitB_of_val c ((formatNat_spec 10 (by omega) (by omega) v).2.1 c h)

/-- A segment text is never empty. -/
theorem segText_ne_nil (v : Nat) : segText v ≠ [] := by
  unfold segText
  simp [formatNat_ne_nil]

/-- Value of a segment text. -/
theorem charsVal_segText (v : Nat) : charsVal 10 (segText v) = v := by
  unfold segText
  split
  · rw [charsVal_append, show charsVal 10 ['0'] = 0 from by decide,
      (formatNat_spec 10 (by omega) (by omega) v).2.2]
    ring
  · simpa using (formatNat_spec 10 (by omega) (by omega) v).2.2

/-- `strconv.Atoi` on a plain digit string. -/
theorem goAtoi_digitsB (s : Str) (hne : s ≠ []) (hd : ∀ c ∈ s, isDigitB c = true)
    (hr : charsVal 10 s ≤ 2 ^ 63 - 1) : goAtoi s = some ((charsVal 10 s : Nat) : Int) :=
  goParseInt_digits 10 s (by omega) (by omega) hne (fun c hc => by
    have := val_lt_of_digitB c (hd c hc)
    omega) hr

/-- `strconv.Atoi` reads a segment text back. -/
theorem goAtoi_segText (v : Nat) (hr : v ≤ 2 ^ 63 - 1) :
    goAtoi (segText v) = some ((v : Nat) : Int) := by
  rw [goAtoi_digitsB (segText v) (segText_ne_nil v) (segText_digits v)
    (by rw [charsVal_segText]; exact hr), charsVal_segText]

set_option maxRecDepth 10000 in
/-- Decimal digit strings below 1000 have at most three digits. -/
theorem formatNat_len_three : ∀ k : Nat, k < 1000 → (formatNat 10 k).length ≤ 3 := by decide

/-- The padded three-digit fraction: length three. -/
theorem pad3_length (k : Nat) (hk : k < 1000) :
    (pad 3 '0' (formatNat 10 k)).length = 3 := by
  unfold pad
  rw [List.length_append, List.length_replicate]
  have := formatNat_len_three k hk
  omega

/-- The padded three-digit fraction: all digits. -/
theorem pad3_digits (k : Nat) : ∀ c ∈ pad 3 '0' (formatNat 10 k), isDigitB c = true := by
  intro c hc
  unfold pad at hc
  rcases List.mem_append.mp hc with h | h
  · rw [List.eq_of_mem_replicate h]
    decide
  · exact digitB_of_val c ((formatNat_spec 10 (by omega) (by omega) k).2.1 c h)

/-- The padded three-digit fraction: value. -/
theorem charsVal_pad3 (k : Nat) : charsVal 10 (pad 3 '0' (formatNat 10 k)) = k := by
  unfold pad
  rw [charsVal_append, charsVal_replicate_zero,
    (formatNat_spec 10 (by omega) (by omega) k).2.2]
  ring

/-- The padded fraction is non-empty. -/
theorem pad3_ne_nil (k : Nat) : pad 3 '0' (formatNat 10 k) ≠ [] := by
  unfold pad
  simp [formatNat_ne_nil]

/-- `strconv.Itoa` of a natural number. -/
theorem formatInt_cast (h : Nat) : formatInt 10 ((h : Nat) : Int) = formatNat 10 h := by
  unfold formatInt
  rw [if_neg (by omega)]
  simp

/-- `formatDuration` at three digits on a non-negative duration: the
concatenation of three zero-padded segments, the separator, and the
three-digit millisecond fraction. -/
theorem formatDuration_three (a : Nat) (sep : Str) :
    formatDuration ((a : Nat) : Int) sep 3 =
      some (segText (a / 3600000000000) ++ [':'] ++
        segText (a % 3600000000000 / 60000000000) ++ [':'] ++
        segText (a % 60000000000 / 1000000000) ++ sep ++
        pad 3 '0' (formatNat 10 (a % 1000000000 / 1000000))) := by
  have hlt : a % 1000000000 / 1000000 < 1000 := by omega
  simp only [formatDuration]
  rw [show (Int.mod ((a : Nat) : Int) 1000000000).div 1000000
      = ((a % 1000000000 / 1000000 : Nat) : Int) from rfl]
  have hfrac : goSprintfMs ((a % 1000000000 / 1000000 : Nat) : Int) 3
      = '0' :: '.' :: pad 3 '0' (formatNat 10 (a % 1000000000 / 1000000)) := by
    unfold goSprintfMs
    rw [if_neg (by omega), Int.natAbs_ofNat,
      sprintfFixed_three (a % 1000000000 / 1000000) hlt]
    simp
  rw [hfrac]
  rw [if_neg (by simp)]
  rw [show (Int.div ((a : Nat) : Int) 3600000000000)
      = ((a / 3600000000000 : Nat) : Int) from rfl]
  rw [show (Int.mod ((a : Nat) : Int) 3600000000000).div 60000000000
      = ((a % 3600000000000 / 60000000000 : Nat) : Int) from rfl]
  rw [show (Int.mod ((a : Nat) : Int) 60000000000).div 1000000000
      = ((a % 60000000000 / 1000000000 : Nat) : Int) from rfl]
  have eIf : ∀ v : Nat, (if ((v : Nat) : Int) < 10 then ['0'] else ([] : Str))
      = (if v < 10 then ['0'] else []) := by
    intro v
    by_cases hv : v < 10
    · rw [if_pos (by exact_mod_cast hv), if_pos hv]
    · rw [if_neg (by exact_mod_cast hv), if_neg hv]
  rw [eIf, eIf, eIf, formatInt_cast, formatInt_cast, formatInt_cast]
  simp [segText, List.append_assoc]

/-- Digits are time characters. -/
theorem timeChar_of_digitB (c : Char) (h : isDigitB c = true) : isTimeChar c = true := by
  unfold isTimeChar
  rw [h]
  rfl

set_option maxRecDepth 100000 in
/-- `parseDuration` at three digits reads a formatted time text back into
its millisecond components. -/
theorem parseDuration_fmt (sep : Str) (hsep : sep ≠ [])
    (hsepP : ∀ c ∈ sep, isTimeChar c = false)
    (h m s k : Nat) (hh : h ≤ 2 ^ 63 - 1) (hm : m ≤ 2 ^ 63 - 1) (hs : s ≤ 2 ^ 63 - 1)
    (hk : k < 1000)
    (hsum : h * 3600000000000 + m * 60000000000 + s * 1000000000 + k * 1000000 < 2 ^ 63) :
    parseDuration (segText h ++ [':'] ++ segText m ++ [':'] ++ segText s ++ sep ++
        pad 3 '0' (formatNat 10 k)) sep 3
      = .ok (((k : Nat) : Int) * 1000000 + ((s : Nat) : Int) * 1000000000 +
          ((m : Nat) : Int) * 60000000000 + ((h : Nat) : Int) * 3600000000000) := by
  set T := segText h ++ [':'] ++ segText m ++ [':'] ++ segText s with hT
  set F := pad 3 '0' (formatNat 10 k) with hF
  have hTchars : ∀ c ∈ T, isTimeChar c = true := by
    intro c hc
    rw [hT] at hc
    simp only [List.append_assoc, List.mem_append, List.mem_cons, List.not_mem_nil,
      or_false] at hc
    rcases hc with hc | hc | hc | hc | hc
    · exact timeChar_of_digitB c (segText_digits h c hc)
    · subst hc; decide
    · exact timeChar_of_digitB c (segText_digits m c hc)
    · subst hc; decide
    · exact timeChar_of_digitB c (segText_digits s c hc)
  have hFdig : ∀ c ∈ F, isDigitB c = true := by
    rw [hF]
    exact pad3_digits k
  have hsplit1 : goSplit (T ++ sep ++ F) sep = [T, F] := by
    have hgj : goJoin [T, F] sep = T ++ sep ++ F := by
      simp [goJoin, List.append_assoc]
    rw [← hgj]
    exact goSplit_join isTimeChar sep hsep hsepP T [F] hTchars (by
      intro q hq c hc
      simp only [List.mem_singleton] at hq
      subst hq
      exact timeChar_of_digitB c (hFdig c hc))
  have hFtrim : goTrimSpace F = F :=
    goTrimSpace_id F (fun c hc => timeChar_not_space c (timeChar_of_digitB c (hFdig c hc)))
  have hFlen : F.length = 3 := by
    rw [hF]
    exact pad3_length k hk
  have hFval : charsVal 10 F = k := by
    rw [hF]
    exact charsVal_pad3 k
  have hAtoiF : goAtoi F = some ((k : Nat) : Int) := by
    rw [goAtoi_digitsB F (by rw [hF]; exact pad3_ne_nil k) hFdig (by rw [hFval]; omega), hFval]
  have hTtrim : goTrimSpace T = T :=
    goTrimSpace_id T (fun c hc => timeChar_not_space c (hTchars c hc))
  have hsplit2 : goSplit T [':'] = [segText h, segText m, segText s] := by
    have hgj2 : goJoin [segText h, segText m, segText s] [':'] = T := by
      rw [hT]
      simp [goJoin, List.append_assoc]
    rw [← hgj2]
    refine goSplit_join isDigitB [':'] (by simp) ?_ (segText h)
      [segText m, segText s] (segText_digits h) ?_
    · intro x hx
      simp only [List.mem_singleton] at hx
      subst hx
      decide
    · intro q hq c hc
      simp only [List.mem_cons, List.mem_singleton, List.not_mem_nil, or_false] at hq
      rcases hq with rfl | rfl
      · exact segText_digits m c hc
      · exact segText_digits s c hc
  have hTrimH : goTrimSpace (segText h) = segText h :=
    goTrimSpace_id _ (fun c hc => timeChar_not_space c (timeChar_of_digitB c (segText_digits h c hc)))
  have hTrimM : goTrimSpace (segText m) = segText m :=
    goTrimSpace_id _ (fun c hc => timeChar_not_space c (timeChar_of_digitB c (segText_digits m c hc)))
  have hTrimS : goTrimSpace (segText s) = segText s :=
    goTrimSpace_id _ (fun c hc => timeChar_not_space c (timeChar_of_digitB c (segText_digits s c hc)))
  have hPow : intPow10 (((3 : Nat) : Int) - ((F.length : Nat) : Int)) = 1 := by
    rw [hFlen]
    decide
  have hWk : wrap64 (((k : Nat) : Int) * 1) = ((k : Nat) : Int) := by
    rw [Int.mul_one]
    exact wrap64_eq_self _ (by omega) (by omega)
  have step2 : parseTimePart (T ++ sep ++ F) (((k : Nat) : Int)) T
      = parseHMSParts (((k : Nat) : Int)) (segText h) (segText m) (segText s) := by
    simp only [parseTimePart]
    rw [hTtrim, hsplit2]
    rw [if_neg (by simp), if_pos (by simp)]
    rfl
  have step3 : parseHMSParts (((k : Nat) : Int)) (segText h) (segText m) (segText s)
      = .ok (goDurSum ((k : Nat) : Int) ((s : Nat) : Int) ((m : Nat) : Int)
          ((h : Nat) : Int)) := by
    simp only [parseHMSParts]
    rw [hTrimS, goAtoi_segText s hs, hTrimM, goAtoi_segText m hm, hTrimH, goAtoi_segText h hh]
    show (if 0 < (segText h).length then
        Except.ok (goDurSum ((k : Nat) : Int) ((s : Nat) : Int) ((m : Nat) : Int)
          ((h : Nat) : Int))
      else Except.ok (goDurSum ((k : Nat) : Int) ((s : Nat) : Int) ((m : Nat) : Int) 0)) = _
    rw [if_pos (List.length_pos.mpr (segText_ne_nil h))]
  have step4 : goDurSum ((k : Nat) : Int) ((s : Nat) : Int) ((m : Nat) : Int) ((h : Nat) : Int)
      = ((k : Nat) : Int) * 1000000 + ((s : Nat) : Int) * 1000000000 +
          ((m : Nat) : Int) * 60000000000 + ((h : Nat) : Int) * 3600000000000 := by
    have w1 : wrap64 (((k : Nat) : Int) * 1000000) = ((k : Nat) : Int) * 1000000 :=
      wrap64_eq_self _ (by omega) (by omega)
    have w2 : wrap64 (((s : Nat) : Int) * 1000000000) = ((s : Nat) : Int) * 1000000000 :=
      wrap64_eq_self _ (by omega) (by omega)
    have w3 : wrap64 (((m : Nat) : Int) * 60000000000) = ((m : Nat) : Int) * 60000000000 :=
      wrap64_eq_self _ (by omega) (by omega)
    have w4 : wrap64 (((h : Nat) : Int) * 3600000000000) = ((h : Nat) : Int) * 3600000000000 :=
      wrap64_eq_self _ (by omega) (by omega)
    have w12 : wrap64 (((k : Nat) : Int) * 1000000 + ((s : Nat) : Int) * 1000000000)
        = ((k : Nat) : Int) * 1000000 + ((s : Nat) : Int) * 1000000000 :=
      wrap64_eq_self _ (by omega) (by omega)
    have w123 : wrap64 (((k : Nat) : Int) * 1000000 + ((s : Nat) : Int) * 1000000000
          + ((m : Nat) : Int) * 60000000000)
        = ((k : Nat) : Int) * 1000000 + ((s : Nat) : Int) * 1000000000
          + ((m : Nat) : Int) * 60000000000 :=
      wrap64_eq_self _ (by omega) (by omega)
    have w1234 : wrap64 (((k : Nat) : Int) * 1000000 + ((s : Nat) : Int) * 1000000000
          + ((m : Nat) : Int) * 60000000000 + ((h : Nat) : Int) * 3600000000000)
        = ((k : Nat) : Int) * 1000000 + ((s : Nat) : Int) * 1000000000
          + ((m : Nat) : Int) * 60000000000 + ((h : Nat) : Int) * 3600000000000 :=
      wrap64_eq_self _ (by omega) (by omega)
    unfold goDurSum
    rw [w1, w2, w3, w4, w12, w123, w1234]
  have step1 : parseDuration (T ++ sep ++ F) sep 3
      = parseTimePart (T ++ sep ++ F) (wrap64 (((k : Nat) : Int) * 1)) T := by
    simp only [parseDuration]
    rw [hsplit1]
    rw [if_pos (by simp), show [T, F].getLastD [] = F from rfl, hFtrim]
    rw [if_neg (by omega), hAtoiF, hPow]
    rfl
  rw [step1, hWk, step2, step3, step4]

/-- C1 (amended): the duration round trip holds at exactly three
millisecond digits: for every millisecond-exact non-negative `int64`
duration and every non-empty separator containing neither digits nor
colons, `parseDuration (formatDuration d sep 3) sep 3` returns `d`. -/
theorem C1_roundtrip_three_digits (d : Int) (sep : Str) (hd0 : 0 ≤ d) (hd1 : d < 2 ^ 63)
    (hexact : d % 1000000 = 0) (hsep : sep ≠ [])
    (hsepP : ∀ c ∈ sep, isDigitB c = false ∧ c ≠ ':') :
    ∃ out, formatDuration d sep 3 = some out ∧ parseDuration out sep 3 = .ok d := by
  obtain ⟨a, rfl⟩ : ∃ a : Nat, d = (a : Int) := ⟨d.toNat, (Int.toNat_of_nonneg hd0).symm⟩
  have ha : a < 2 ^ 63 := by exact_mod_cast hd1
  have ha6 : a % 1000000 = 0 := by omega
  refine ⟨_, formatDuration_three a sep, ?_⟩
  have hsepP' : ∀ c ∈ sep, isTimeChar c = false := by
    intro c hc
    have hcc := hsepP c hc
    unfold isTimeChar
    rw [hcc.1]
    simpa using hcc.2
  rw [parseDuration_fmt sep hsep hsepP' (a / 3600000000000)
    (a % 3600000000000 / 60000000000) (a % 60000000000 / 1000000000)
    (a % 1000000000 / 1000000) (by omega) (by omega) (by omega) (by omega) (by omega)]
  congr 1
  have key : (a % 1000000000 / 1000000) * 1000000 +
      (a % 60000000000 / 1000000000) * 1000000000 +
      (a % 3600000000000 / 60000000000) * 60000000000 +
      (a / 3600000000000) * 3600000000000 = a := by omega
  push_cast
  exact_mod_cast congrArg (fun x : Nat => (x : Int)) key

/-- Witness for the amended C1 at `01:02:03.004` with separator `","`. -/
theorem C1_witness :
    ((0 : Int) ≤ 3723004000000 ∧ (3723004000000 : Int) < 2 ^ 63 ∧
        (3723004000000 : Int) % 1000000 = 0 ∧ ",".toList ≠ [] ∧
        (∀ c ∈ ",".toList, isDigitB c = false ∧ c ≠ ':')) ∧
      ∃ out, formatDuration 3723004000000 ",".toList 3 = some out ∧
        parseDuration out ",".toList 3 = .ok 3723004000000 :=
  ⟨⟨by norm_num, by norm_num, by norm_num, by simp, by decide⟩,
    C1_roundtrip_three_digits 3723004000000 ",".toList (by norm_num) (by norm_num)
      (by norm_num) (by simp) (by decide)⟩

set_option maxRecDepth 10000 in
/-- C1 counterexample: the round trip fails already at four millisecond
digits.  `formatDuration` renders the zero duration with a four-digit
fraction, and `parseDuration` rejects every fractional segment longer than
three characters — for any digit count — with a FormatError, instead of
returning the duration. -/
theorem C1_counterexample :
    formatDuration 0 ",".toList 4 = some "00:00:00,0000".toList ∧
      parseDuration "00:00:00,0000".toList ",".toList 4
        = .error (.invalidMsDigits "00:00:00,0000".toList) := by
  constructor
  · decide
  · simp [parseDuration, goSplit, goSplitAux, goTrimSpace, goIsSpace, List.dropWhile]

/-! ### C5: the fractional segment of `parseDuration` -/

/-- Every fractional segment longer than three characters is rejected,
whatever the digit count. -/
theorem parseDuration_frac_long (A F sep : Str) (n : Nat) (hsep : sep ≠ [])
    (hsepP : ∀ c ∈ sep, isTimeChar c = false)
    (hA : ∀ c ∈ A, isTimeChar c = true) (hF : ∀ c ∈ F, isDigitB c = true)
    (hlen : 3 < F.length) :
    parseDuration (A ++ sep ++ F) sep n = .error (.invalidMsDigits (A ++ sep ++ F)) := by
  have hsplit : goSplit (A ++ sep ++ F) sep = [A, F] := by
    have hgj : goJoin [A, F] sep = A ++ sep ++ F := by
      simp [goJoin, List.append_assoc]
    rw [← hgj]
    exact goSplit_join isTimeChar sep hsep hsepP A [F] hA (by
      intro q hq c hc
      simp only [List.mem_singleton] at hq
      subst hq
      exact timeChar_of_digitB c (hF c hc))
  have hFtrim : goTrimSpace F = F :=
    goTrimSpace_id F (fun c hc => timeChar_not_space c (timeChar_of_digitB c (hF c hc)))
  simp only [parseDuration]
  rw [hsplit, if_pos (by simp), show [A, F].getLastD [] = F from rfl, hFtrim,
    if_pos hlen]

/-- The concrete `00:00:00` time part parses to zero, leaving only the
(wrapped) millisecond contribution. -/
theorem parseTimePart_zeros (orig : Str) (ms : Int) :
    parseTimePart orig ms "00:00:00".toList = .ok (goDurSum ms 0 0 0) := by
  simp [parseTimePart, goTrimSpace, goIsSpace, List.dropWhile, goSplit, goSplitAux,
    parseHMSParts, goAtoi, goParseInt, goSign, goParseDigits, charsVal, digitVal]

/-- The exact millisecond contribution of a short (≤ 3 characters, digits
only) fractional segment: its integer value times
`int(math.Pow10(digits - length))`, wrap-multiplied by `time.Millisecond`,
every step in wrapping `int64` arithmetic. -/
theorem parseDuration_frac_value (F : Str) (n : Nat) (hne : F ≠ [])
    (hF : ∀ c ∈ F, isDigitB c = true) (hlen : F.length ≤ 3) :
    parseDuration ("00:00:00".toList ++ ".".toList ++ F) ".".toList n
      = .ok (wrap64 (wrap64 ((charsVal 10 F : Int) * intPow10 ((n : Int) - F.length))
          * 1000000)) := by
  have hsplit : goSplit ("00:00:00".toList ++ ".".toList ++ F) ".".toList
      = ["00:00:00".toList, F] := by
    have hgj : goJoin ["00:00:00".toList, F] ".".toList
        = "00:00:00".toList ++ ".".toList ++ F := by
      simp [goJoin, List.append_assoc]
    rw [← hgj]
    refine goSplit_join isTimeChar ".".toList (by simp) (by decide) "00:00:00".toList [F]
      (by decide) ?_
    intro q hq c hc
    simp only [List.mem_singleton] at hq
    subst hq
    exact timeChar_of_digitB c (hF c hc)
  have hFtrim : goTrimSpace F = F :=
    goTrimSpace_id F (fun c hc => timeChar_not_space c (timeChar_of_digitB c (hF c hc)))
  have hval : charsVal 10 F ≤ 2 ^ 63 - 1 := by
    have hb : charsVal 10 F < 10 ^ F.length := by
      clear hsplit hFtrim hlen hne
      induction F with
      | nil => simp [charsVal]
      | cons c t ih =>
        have hc := val_lt_of_digitB c (hF c (by simp))
        have ht := ih (fun x hx => hF x (by simp [hx]))
        rw [show charsVal 10 (c :: t)
            = t.foldl (fun a c => a * 10 + digitVal c) (0 * 10 + digitVal c) from rfl,
          charsVal_foldl]
        simp only [List.length_cons]
        have hgrow : (0 * 10 + digitVal c) * 10 ^ t.length + charsVal 10 t
            < (digitVal c + 1) * 10 ^ t.length := by
          have h10 : (0 : Nat) < 10 ^ t.length := Nat.pos_pow_of_pos _ (by omega)
          nlinarith
        calc (0 * 10 + digitVal c) * 10 ^ t.length + charsVal 10 t
            < (digitVal c + 1) * 10 ^ t.length := hgrow
          _ ≤ 10 * 10 ^ t.length := by
              have : digitVal c + 1 ≤ 10 := by omega
              exact Nat.mul_le_mul_right _ this
          _ = 10 ^ (t.length + 1) := by ring
    have : (10 : Nat) ^ F.length ≤ 10 ^ 3 := Nat.pow_le_pow_right (by omega) hlen
    omega
  simp only [parseDuration]
  rw [hsplit, if_pos (by simp),
    show ["00:00:00".toList, F].getLastD [] = F from rfl, hFtrim,
    if_neg (by omega),
    goAtoi_digitsB F hne hF hval,
    show goJoin ["00:00:00".toList, F].dropLast ".".toList = "00:00:00".toList from rfl]
  show parseTimePart ("00:00:00".toList ++ ".".toList ++ F)
      (wrap64 ((charsVal 10 F : Int) * intPow10 ((n : Int) - F.length)))
      "00:00:00".toList = _
  rw [parseTimePart_zeros, goDurSum_ms]

set_option maxRecDepth 10000 in
/-- For digit counts up to 18, `int(math.Pow10(m))` is exactly `10^m` (the
double is exact and the truncation fits `int64`). -/
theorem intPow10_exact : ∀ m : Nat, m ≤ 18 → intPow10 (m : Int) = 10 ^ m := by decide

/-- For negative arguments — a fractional segment longer than the digit
count — the multiplier truncates to zero. -/
theorem intPow10_neg (m : Int) (h : m < 0) : intPow10 m = 0 := by
  unfold intPow10
  rw [if_pos h]

set_option maxRecDepth 100000 in
/-- From 19 on the double `Pow10(m)` exceeds `int64`, so the amd64
conversion gives `math.MinInt64` for every table exponent. -/
theorem intPow10_sat : ∀ m : Nat, m < 309 → 19 ≤ m → intPow10 (m : Int) = -(2 ^ 63) := by
  decide

/-- `int(math.Pow10(m))` is `math.MinInt64` for every `m ≥ 19` (on amd64):
the double exceeds the `int64` range (or is `+Inf` past 308). -/
theorem intPow10_minInt (m : Int) (h : 18 < m) : intPow10 m = -(2 ^ 63) := by
  by_cases h308 : m ≤ 308
  · have hm : m = ((m.toNat : Nat) : Int) := (Int.toNat_of_nonneg (by omega)).symm
    rw [hm]
    exact intPow10_sat m.toNat (by omega) (by omega)
  · unfold intPow10
    rw [if_neg (by omega), if_neg (by omega)]

/-- C5 (amended): a trailing fractional segment of more than 3 digits is a
FormatError regardless of `millisecondDigits`; a segment of at most 3
digits contributes `wrap64 (value * int(math.Pow10(digits - length)))`
milliseconds, combined into the duration with wrapping `int64` arithmetic.
The multiplier is the exact power of ten only for `digits - length ≤ 18`;
it is 0 for a segment longer than the digit count (`int(math.Pow10` of a
negative truncates to zero), and `math.MinInt64` (amd64) from 19 on, where
the double exceeds the `int64` range. -/
theorem C5_fractional_segment :
    (∀ (A F sep : Str) (n : Nat), sep ≠ [] → (∀ c ∈ sep, isTimeChar c = false) →
      (∀ c ∈ A, isTimeChar c = true) → (∀ c ∈ F, isDigitB c = true) → 3 < F.length →
      parseDuration (A ++ sep ++ F) sep n = .error (.invalidMsDigits (A ++ sep ++ F))) ∧
    (∀ (F : Str) (n : Nat), F ≠ [] → (∀ c ∈ F, isDigitB c = true) → F.length ≤ 3 →
      parseDuration ("00:00:00".toList ++ ".".toList ++ F) ".".toList n
        = .ok (wrap64 (wrap64 ((charsVal 10 F : Int) * intPow10 ((n : Int) - F.length))
            * 1000000))) ∧
    (∀ m : Nat, m ≤ 18 → intPow10 (m : Int) = 10 ^ m) ∧
    (∀ m : Int, m < 0 → intPow10 m = 0) ∧
    (∀ m : Int, 18 < m → intPow10 m = -(2 ^ 63)) :=
  ⟨parseDuration_frac_long, parseDuration_frac_value, intPow10_exact, intPow10_neg,
    intPow10_minInt⟩

set_option maxRecDepth 10000 in
/-- Witness for C5: `".5"` at three digits means 500 ms; at fourteen digits
the contribution wraps to a negative duration; `".1234"` is rejected at any
digit count; and the three multiplier regimes at `2`, `-1` and `19`. -/
theorem C5_witness :
    (parseDuration "00:00:00.5".toList ".".toList 3 = .ok ((5 : Int) * 100 * 1000000) ∧
        parseDuration "00:00:00.5".toList ".".toList 14 = .ok (-5340232221128654848) ∧
        parseDuration "00:00:00.1234".toList ".".toList 9
          = .error (.invalidMsDigits "00:00:00.1234".toList)) ∧
      intPow10 2 = 100 ∧ intPow10 (-1) = 0 ∧ intPow10 19 = -(2 ^ 63) := by
  refine ⟨⟨?_, ?_, ?_⟩, ?_, ?_, ?_⟩
  · have h := C5_fractional_segment.2.1 ['5'] 3 (by simp) (by decide) (by decide)
    rw [show "00:00:00".toList ++ ".".toList ++ ['5'] = "00:00:00.5".toList from by decide] at h
    rw [h]
    decide
  · have h := C5_fractional_segment.2.1 ['5'] 14 (by simp) (by decide) (by decide)
    rw [show "00:00:00".toList ++ ".".toList ++ ['5'] = "00:00:00.5".toList from by decide] at h
    rw [h]
    decide
  · have h := C5_fractional_segment.1 "00:00:00".toList ['1', '2', '3', '4'] ".".toList 9
      (by simp) (by decide) (by decide) (by decide) (by decide)
    rw [show "00:00:00".toList ++ ".".toList ++ ['1', '2', '3', '4']
      = "00:00:00.1234".toList from by decide] at h
    exact h
  · exact C5_fractional_segment.2.2.1 2 (by omega)
  · exact C5_fractional_segment.2.2.2.1 (-1) (by omega)
  · exact C5_fractional_segment.2.2.2.2 19 (by omega)

set_option maxRecDepth 10000 in
/-- C5 counterexample: with two millisecond digits, the three-digit segment
`"123"` does not contribute its leading two digits (12 ms) as the claim
states: the multiplier `int(math.Pow10(2-3)) = int(0.1) = 0` wipes it out,
and the parse returns 0. -/
theorem C5_counterexample :
    parseDuration "00:00:00.123".toList ".".toList 2 = .ok 0 ∧
      (Except.ok (0 : Int) : Except GoErr Int) ≠ .ok (12 * 1000000) := by
  constructor
  · simp [parseDuration, goSplit, goSplitAux, goTrimSpace, goIsSpace, List.dropWhile,
      parseTimePart, parseHMSParts, goAtoi, goParseInt, goSign, goParseDigits, charsVal,
      digitVal, intPow10, wrap64, goDurSum]
  · decide

/-! ### C6: signed numeric segments -/

/-- Character of a (possibly signed) integer literal. -/
def isSignDigit (c : Char) : Bool := isDigitB c || c == '-' || c == '+'

/-- Characters allowed in a signed time-of-day text. -/
def isSignTimeChar (c : Char) : Bool := isSignDigit c || c == ':'

/-- Signed time characters are not white space. -/
theorem signTimeChar_not_space (c : Char) (h : isSignTimeChar c = true) :
    goIsSpace c = false := by
  simp only [isSignTimeChar, isSignDigit, Bool.or_eq_true, beq_iff_eq] at h
  have hb : 43 ≤ c.toNat ∧ c.toNat ≤ 58 := by
    rcases h with ((h1 | h1) | h1) | h1
    · have h2 : '0' ≤ c ∧ c ≤ '9' := of_decide_eq_true h1
      have h3 : 48 ≤ c.toNat := h2.1
      have h4 : c.toNat ≤ 57 := h2.2
      omega
    · subst h1; exact ⟨by decide, by decide⟩
    · subst h1; exact ⟨by decide, by decide⟩
    · subst h1; exact ⟨by decide, by decide⟩
  rw [Bool.eq_false_iff]
  intro hcon
  simp only [goIsSpace] at hcon
  simp at hcon
  omega

/-- C6 (amended): `parseDuration` parses each `:`-separated segment with
`strconv.Atoi`, which accepts any signed 64-bit integer: the parse fails
with a FormatError carrying the offending token exactly when some segment
is not a valid signed integer.  A negative segment such as `"-5"` is
accepted (not rejected), and the accepted values are combined into the
duration with Go's wrapping `int64` arithmetic (`goDurSum`), so a negative
segment lowers the result whenever the sum stays inside the `int64`
range. -/
theorem C6_signed_segments (H M S sep : Str) (n : Nat) (hsep : sep ≠ [])
    (hsepP : ∀ c ∈ sep, isSignTimeChar c = false)
    (hH : ∀ c ∈ H, isSignDigit c = true) (hM : ∀ c ∈ M, isSignDigit c = true)
    (hS : ∀ c ∈ S, isSignDigit c = true) :
    parseDuration (H ++ [':'] ++ M ++ [':'] ++ S) sep n =
      match goAtoi S with
      | none => .error (.atoiFailed S)
      | some seconds =>
        match goAtoi M with
        | none => .error (.atoiFailed M)
        | some minutes =>
          if 0 < H.length then
            match goAtoi H with
            | none => .error (.atoiFailed H)
            | some hours => .ok (goDurSum 0 seconds minutes hours)
          else
            .ok (goDurSum 0 seconds minutes 0) := by
  have hsignT : ∀ c ∈ H ++ [':'] ++ M ++ [':'] ++ S, isSignTimeChar c = true := by
    intro c hc
    simp only [List.append_assoc, List.mem_append, List.mem_cons, List.not_mem_nil,
      or_false] at hc
    have hof : isSignDigit c = true → isSignTimeChar c = true := by
      intro hh
      unfold isSignTimeChar
      rw [hh]
      rfl
    rcases hc with hc | hc | hc | hc | hc
    · exact hof (hH c hc)
    · subst hc; decide
    · exact hof (hM c hc)
    · subst hc; decide
    · exact hof (hS c hc)
  have hsplit1 : goSplit (H ++ [':'] ++ M ++ [':'] ++ S) sep
      = [H ++ [':'] ++ M ++ [':'] ++ S] := by
    have hgj : goJoin [H ++ [':'] ++ M ++ [':'] ++ S] sep
        = H ++ [':'] ++ M ++ [':'] ++ S := rfl
    rw [← hgj]
    exact goSplit_join isSignTimeChar sep hsep hsepP _ [] hsignT (by simp)
  have htrim : goTrimSpace (H ++ [':'] ++ M ++ [':'] ++ S) = H ++ [':'] ++ M ++ [':'] ++ S :=
    goTrimSpace_id _ (fun c hc => signTimeChar_not_space c (hsignT c hc))
  have hsplit2 : goSplit (H ++ [':'] ++ M ++ [':'] ++ S) [':'] = [H, M, S] := by
    have hgj2 : goJoin [H, M, S] [':'] = H ++ [':'] ++ M ++ [':'] ++ S := by
      simp [goJoin, List.append_assoc]
    rw [← hgj2]
    refine goSplit_join isSignDigit [':'] (by simp) ?_ H [M, S] hH ?_
    · intro x hx
      simp only [List.mem_singleton] at hx
      subst hx
      decide
    · intro q hq c hc
      simp only [List.mem_cons, List.mem_singleton, List.not_mem_nil, or_false] at hq
      rcases hq with rfl | rfl
      · exact hM c hc
      · exact hS c hc
  have htrimH : goTrimSpace H = H := goTrimSpace_id _ (fun c hc =>
    signTimeChar_not_space c (by unfold isSignTimeChar; rw [hH c hc]; rfl))
  have htrimM : goTrimSpace M = M := goTrimSpace_id _ (fun c hc =>
    signTimeChar_not_space c (by unfold isSignTimeChar; rw [hM c hc]; rfl))
  have htrimS : goTrimSpace S = S := goTrimSpace_id _ (fun c hc =>
    signTimeChar_not_space c (by unfold isSignTimeChar; rw [hS c hc]; rfl))
  simp only [parseDuration]
  rw [hsplit1]
  rw [if_neg (by simp)]
  simp only [parseTimePart]
  rw [htrim, hsplit2]
  rw [if_neg (by simp), if_pos (by simp)]
  show parseHMSParts 0 H M S = _
  simp only [parseHMSParts]
  rw [htrimS, htrimM, htrimH]

set_option maxRecDepth 10000 in
/-- Witness for the amended C6: `"1:-2:3"` parses, its negative minutes
segment accepted. -/
theorem C6_witness :
    ((",".toList ≠ []) ∧ (∀ c ∈ ",".toList, isSignTimeChar c = false) ∧
        (∀ c ∈ ['1'], isSignDigit c = true) ∧ (∀ c ∈ ['-', '2'], isSignDigit c = true) ∧
        (∀ c ∈ ['3'], isSignDigit c = true)) ∧
      parseDuration "1:-2:3".toList ",".toList 3 = .ok 3483000000000 := by
  refine ⟨⟨by simp, by decide, by decide, by decide, by decide⟩, ?_⟩
  have h := C6_signed_segments ['1'] ['-', '2'] ['3'] ",".toList 3 (by simp) (by decide)
    (by decide) (by decide) (by decide)
  rw [show ['1'] ++ [':'] ++ ['-', '2'] ++ [':'] ++ ['3'] = "1:-2:3".toList from by decide] at h
  rw [h]
  decide

set_option maxRecDepth 10000 in
/-- C6 counterexample: `"00:-5:10"` contains the negative minutes segment
`"-5"`, which the claim says must be rejected with a FormatError; the code
accepts it and returns `10s − 5min = −290s`. -/
theorem C6_counterexample :
    parseDuration "00:-5:10".toList ",".toList 3 = .ok (-290000000000) := by
  simp [parseDuration, goSplit, goSplitAux, goTrimSpace, goIsSpace, List.dropWhile,
    parseTimePart, parseHMSParts, goAtoi, goParseInt, goSign, goParseDigits, charsVal,
    digitVal, goDurSum, wrap64]

/-! ### `Unfragment` -/

/-- The inner `j` loop of `Unfragment` at a fixed position `i`: scan every
later position, and when the rendered texts are equal and item `i`'s
current end equals item `j`'s start, extend item `i` to item `j`'s end and
remove item `j` (the `j--` in the source retries the same position after
the removal). -/
def unfragInner (l : List Item) (i j : Nat) : List Item :=
  if h : j < l.length then
    let a := l.getD i default
    let b := l.getD j default
    if a.string = b.string ∧ a.EndAt = b.StartAt then
      unfragInner ((l.set i { a with EndAt := b.EndAt }).eraseIdx j) i j
    else unfragInner l i (j + 1)
  else l
termination_by (l.length, l.length - j)
decreasing_by
  · apply Prod.Lex.left
    rw [List.length_eraseIdx_of_lt (by simpa using h)]
    simp only [List.length_set]
    omega
  · apply Prod.Lex.right
    omega

/-- The inner loop never grows the list. -/
theorem unfragInner_length_le (l : List Item) (i j : Nat) :
    (unfragInner l i j).length ≤ l.length := by
  rw [unfragInner]
  dsimp only
  split
  · next h =>
    split
    · refine le_trans (unfragInner_length_le _ i j) ?_
      rw [List.length_eraseIdx_of_lt (by simpa using h)]
      simp only [List.length_set]
      omega
    · exact unfragInner_length_le l i (j + 1)
  · exact le_refl _
termination_by (l.length, l.length - j)
decreasing_by
  all_goals rename_i hj hc
  all_goals first
    | (apply Prod.Lex.right
       omega)
    | (apply Prod.Lex.left
       rw [List.length_eraseIdx_of_lt (by simpa using hj)]
       simp only [List.length_set]
       omega)

/-- The outer `i` loop of `Unfragment`. -/
def unfragOuter (l : List Item) (i : Nat) : List Item :=
  if i < l.length - 1 then unfragOuter (unfragInner l i (i + 1)) (i + 1) else l
termination_by l.length - i
decreasing_by
  have := unfragInner_length_le l i (i + 1)
  omega

/-- `Unfragment`: no-op below two items, else the merging scan followed by
`Order`. -/
def unfragment (l : List Item) : List Item :=
  if l.length ≤ 1 then l else order (unfragOuter l 0)

/-- A cue with a single line of plain text. -/
def mkCue (s e : Int) (txt : Str) : Item :=
  { Comments := []
    EndAt := e
    InlineStyle := none
    Lines := [{ Items := [{ InlineStyle := none, Style := none, Text := txt }]
                VoiceName := [] }]
    Region := none
    StartAt := s
    Style := none }

/-- Modelled from the claim's words, for comparison: merge only items at
consecutive positions (retrying the same position after a merge), then
order. -/
def mergeAdjacent : List Item → List Item
  | [] => []
  | [a] => [a]
  | a :: b :: t =>
    if a.string = b.string ∧ a.EndAt = b.StartAt then
      mergeAdjacent ({ a with EndAt := b.EndAt } :: t)
    else a :: mergeAdjacent (b :: t)
termination_by l => l.length

/-- The claim's predicted `Unfragment`: consecutive-position merges, then
order. -/
def unfragmentSpec (l : List Item) : List Item :=
  if l.length ≤ 1 then l else order (mergeAdjacent l)

/-- C7 counterexample: `Unfragment` merges pairs of items that are *not* at
consecutive positions.  On `[{0–2,"a"}, {5–7,"b"}, {2–4,"a"}]` the inner
scan merges positions 0 and 2 across the non-matching item between them,
yielding two items, while merging only consecutive positions (as the claim
states) would merge nothing and keep three items. -/
theorem C7_counterexample :
    unfragment [mkCue 0 2000000000 "a".toList, mkCue 5000000000 7000000000 "b".toList,
        mkCue 2000000000 4000000000 "a".toList]
      = [mkCue 0 4000000000 "a".toList, mkCue 5000000000 7000000000 "b".toList] ∧
    unfragmentSpec [mkCue 0 2000000000 "a".toList, mkCue 5000000000 7000000000 "b".toList,
        mkCue 2000000000 4000000000 "a".toList]
      = [mkCue 0 2000000000 "a".toList, mkCue 2000000000 4000000000 "a".toList,
        mkCue 5000000000 7000000000 "b".toList] ∧
    unfragment [mkCue 0 2000000000 "a".toList, mkCue 5000000000 7000000000 "b".toList,
        mkCue 2000000000 4000000000 "a".toList]
      ≠ unfragmentSpec [mkCue 0 2000000000 "a".toList, mkCue 5000000000 7000000000 "b".toList,
        mkCue 2000000000 4000000000 "a".toList] := by
  refine ⟨?_, ?_, ?_⟩
  · simp [unfragment, unfragOuter, unfragInner, order, orderLoop, bubblePass, mkCue,
      Item.string, Line.string, goJoin]
  · simp [unfragmentSpec, mergeAdjacent, order, orderLoop, bubblePass, mkCue,
      Item.string, Line.string, goJoin]
  · intro hcon
    rw [show unfragment [mkCue 0 2000000000 "a".toList, mkCue 5000000000 7000000000 "b".toList,
        mkCue 2000000000 4000000000 "a".toList]
      = [mkCue 0 4000000000 "a".toList, mkCue 5000000000 7000000000 "b".toList] from by
        simp [unfragment, unfragOuter, unfragInner, order, orderLoop, bubblePass, mkCue,
          Item.string, Line.string, goJoin]] at hcon
    rw [show unfragmentSpec [mkCue 0 2000000000 "a".toList,
        mkCue 5000000000 7000000000 "b".toList, mkCue 2000000000 4000000000 "a".toList]
      = [mkCue 0 2000000000 "a".toList, mkCue 2000000000 4000000000 "a".toList,
        mkCue 5000000000 7000000000 "b".toList] from by
        simp [unfragmentSpec, mergeAdjacent, order, orderLoop, bubblePass, mkCue,
          Item.string, Line.string, goJoin]] at hcon
    simp [mkCue] at hcon

/-- C7 (amended): `Unfragment` merges item `i` with *any* later item `j`
(scanning `j` upward and retrying the position after a removal, so chains
of three or more collapse into one) whenever the rendered texts are equal
and item `i`'s current end offset equals item `j`'s start offset; the
earlier item's end is extended to the later item's end, the later item is
removed, and the result is ordered.  In particular
`[{0–2s,"a"},{2–4s,"a"}]` becomes `[{0–4s,"a"}]`. -/
theorem C7_unfragment_merges (l : List Item) :
    sortedByStart (unfragment l) ∧
      unfragment [mkCue 0 2000000000 "a".toList, mkCue 2000000000 4000000000 "a".toList]
        = [mkCue 0 4000000000 "a".toList] ∧
      unfragment [mkCue 0 2000000000 "a".toList, mkCue 2000000000 4000000000 "a".toList,
          mkCue 4000000000 6000000000 "a".toList]
        = [mkCue 0 6000000000 "a".toList] ∧
      unfragment [mkCue 0 2000000000 "a".toList, mkCue 3000000000 4000000000 "b".toList,
          mkCue 2000000000 3000000000 "a".toList]
        = [mkCue 0 3000000000 "a".toList, mkCue 3000000000 4000000000 "b".toList] := by
  refine ⟨?_, ?_, ?_, ?_⟩
  · unfold unfragment
    split
    · next h =>
      match l, h with
      | [], _ => exact List.Pairwise.nil
      | [a], _ => simp [sortedByStart]
    · exact order_sorted _
  · simp [unfragment, unfragOuter, unfragInner, order, orderLoop, bubblePass, mkCue,
      Item.string, Line.string, goJoin]
  · simp [unfragment, unfragOuter, unfragInner, order, orderLoop, bubblePass, mkCue,
      Item.string, Line.string, goJoin]
  · simp [unfragment, unfragOuter, unfragInner, order, orderLoop, bubblePass, mkCue,
      Item.string, Line.string, goJoin]

/-! ### `Fragment` -/

/-- The mutable state of `Fragment`.  `s.Items` is a Go slice of *pointers*
(`[]*Item`), so the embedding keeps a cell store `vals` (cell id = index;
a mutation is visible through every slice holding the pointer) and
represents slices as lists of cell ids: `curIds` is `s.Items`, `snapIds`
the pointer layout the live `range` snapshot reads, and `aliased` whether
that snapshot still shares its backing array with `s.Items` — while it
does, the snapshot sees the in-place shifts, i.e. reads `curIds`
itself. -/
structure FragSt where
  vals : List Item
  curIds : List Nat
  snapIds : List Nat
  aliased : Bool

/-- One insertion of the pass: the scanned item (cell `id`, current value
`sub`) gets its start offset mutated to the boundary `b`, and a copy of
its pre-mutation value ending at `b` becomes a fresh cell inserted at
position `i` of `s.Items` (the source's
`append(s.Items[:i], append([]*Item{newSub}, s.Items[i:]...)...)`).
`inPlace` is the `append` behaviour at this call: `true` reuses the
backing array (spare capacity), keeping the shift visible through a
still-aliased snapshot; `false` reallocates, freezing the snapshot at the
pre-insertion layout.  The language ties this to the slice's capacity,
which the caller and the runtime's growth policy control, so every theorem
below quantifies over all behaviours. -/
def insertFrag (st : FragSt) (i id : Nat) (sub : Item) (b : Int) (inPlace : Bool) : FragSt :=
  { vals := (st.vals.set id { sub with StartAt := b }) ++ [{ sub with EndAt := b }]
    curIds := st.curIds.insertIdx i st.vals.length
    snapIds := if st.aliased && !inPlace then st.curIds else st.snapIds
    aliased := st.aliased && inPlace }

/-- One `for i, sub := range s.Items` pass of `Fragment` over the window
`[fs, fe)`: `n` is the length captured by `range`; each iteration reads
the pointer at snapshot position `i` (through `curIds` while aliased,
through the frozen `snapIds` after a reallocation) and splits the
pointed-at item when it strictly contains the window start (case 1) or the
window end (case 2).  `sched` is the oracle of `append` behaviours, one
entry per insertion (`headI` of an exhausted oracle defaults to a
reallocation). -/
def fragmentPassA (fs fe : Int) (st : FragSt) (sched : List Bool) (i n : Nat) :
    FragSt × List Bool :=
  if h : i < n then
    let id := (if st.aliased then st.curIds else st.snapIds).getD i 0
    let sub := st.vals.getD id default
    if sub.StartAt < fs ∧ fs < sub.EndAt then
      fragmentPassA fs fe (insertFrag st i id sub fs sched.headI) sched.tail (i + 1) n
    else if sub.StartAt < fe ∧ fe < sub.EndAt then
      fragmentPassA fs fe (insertFrag st i id sub fe sched.headI) sched.tail (i + 1) n
    else fragmentPassA fs fe st sched (i + 1) n
  else (st, sched)
termination_by n - i
decreasing_by all_goals omega

/-- `s.Items[len(s.Items)-1].EndAt`, the loop bound of the sweep (`0` for
the empty slice, which the source never queries: `Fragment` returns early
on empty input and insertions only grow the slice). -/
def lastEndA (st : FragSt) : Int :=
  (st.curIds.getLast?.map (fun id => (st.vals.getD id default).EndAt)).getD 0

/-- Well-formedness: every slice entry points at an allocated cell.  This
holds for every state reachable from an item list (`insertFrag` allocates
the cell it inserts) and is invariant under the pass; it appears in
`fragLoopA`'s guard only so the sweep's termination measure is provable,
and never changes the behaviour on reachable states. -/
def stWF (st : FragSt) : Prop := ∀ id ∈ st.curIds, id < st.vals.length

instance (st : FragSt) : Decidable (stWF st) := List.decidableBAll _ _

/-- Inserting strictly inside a list leaves its last element alone. -/
theorem getLast?_insertIdx_lt {α : Type _} (l : List α) (i : Nat) (a : α)
    (h : i < l.length) : (l.insertIdx i a).getLast? = l.getLast? := by
  induction l generalizing i with
  | nil => simp at h
  | cons b t ih =>
    cases i with
    | zero =>
      rw [List.insertIdx_zero]
      simp
    | succ j =>
      have hj : j < t.length := by simpa using h
      cases t with
      | nil => simp at hj
      | cons c u =>
        rw [List.insertIdx_succ_cons]
        cases j with
        | zero =>
          rw [List.insertIdx_zero]
          simp
        | succ j2 =>
          rw [List.insertIdx_succ_cons, List.getLast?_cons_cons, List.getLast?_cons_cons]
          have h2 := ih (j2 + 1) hj
          rw [List.insertIdx_succ_cons] at h2
          exact h2

/-- `getD` looks into the left part of an append when in range. -/
theorem getD_append_left (l₁ l₂ : List Item) (j : Nat) (hj : j < l₁.length) :
    (l₁ ++ l₂).getD j default = l₁.getD j default := by
  rw [List.getD_eq_getElem?_getD, List.getD_eq_getElem?_getD, List.getElem?_append_left hj]

/-- Setting a cell to a value with the same end offset preserves every
cell's end offset. -/
theorem getD_set_endAt (l : List Item) (j idx : Nat) (x : Item)
    (hx : x.EndAt = (l.getD j default).EndAt) :
    ((l.set j x).getD idx default).EndAt = (l.getD idx default).EndAt := by
  by_cases hji : j = idx
  · subst hji
    by_cases hj : j < l.length
    · rw [List.getD_eq_getElem?_getD, List.getElem?_set_self hj, Option.getD_some, hx]
    · rw [List.set_eq_of_length_le (by omega)]
  · rw [List.getD_eq_getElem?_getD, List.getD_eq_getElem?_getD, List.getElem?_set_ne hji]

/-- A strictly-inside insertion keeps the state well-formed, grows the
slice by one, and preserves the last entry's end offset — the mutated cell
changes only its start offset. -/
theorem insertFrag_inv (st : FragSt) (i id : Nat) (b : Int) (dec : Bool)
    (hwf : stWF st) (hi : i < st.curIds.length) :
    lastEndA (insertFrag st i id (st.vals.getD id default) b dec) = lastEndA st ∧
      stWF (insertFrag st i id (st.vals.getD id default) b dec) ∧
      (insertFrag st i id (st.vals.getD id default) b dec).curIds.length
        = st.curIds.length + 1 := by
  refine ⟨?_, ?_, ?_⟩
  · simp only [lastEndA, insertFrag]
    rw [getLast?_insertIdx_lt st.curIds i st.vals.length hi]
    cases hq : st.curIds.getLast? with
    | none => rfl
    | some idL =>
      have hmem : idL ∈ st.curIds := List.mem_of_getLast?_eq_some hq
      have hlt : idL < st.vals.length := hwf idL hmem
      dsimp only [Option.map, Option.getD]
      rw [getD_append_left]
      · exact getD_set_endAt st.vals id idL _ rfl
      · rw [List.length_set]
        exact hlt
  · intro x hx
    simp only [insertFrag] at hx
    simp only [insertFrag, List.length_append, List.length_set, List.length_singleton]
    rcases (List.mem_insertIdx (le_of_lt hi)).mp hx with rfl | hmem
    · omega
    · have := hwf x hmem
      omega
  · simp only [insertFrag]
    exact List.length_insertIdx i st.curIds (le_of_lt hi)

/-- The pass preserves the last entry's end offset, keeps the state
well-formed and never shrinks the slice — whatever the oracle says. -/
theorem fragmentPassA_inv (fs fe : Int) (st : FragSt) (sched : List Bool) (i n : Nat)
    (hwf : stWF st) (hn : n ≤ st.curIds.length) :
    lastEndA (fragmentPassA fs fe st sched i n).1 = lastEndA st ∧
      stWF (fragmentPassA fs fe st sched i n).1 ∧
      n ≤ (fragmentPassA fs fe st sched i n).1.curIds.length := by
  rw [fragmentPassA]
  split
  · next hin =>
    dsimp only
    generalize ((if st.aliased then st.curIds else st.snapIds).getD i 0) = id0
    split
    · have hins := insertFrag_inv st i id0 fs sched.headI hwf (by omega)
      have ih := fragmentPassA_inv fs fe
        (insertFrag st i id0 (st.vals.getD id0 default) fs sched.headI)
        sched.tail (i + 1) n hins.2.1 (by rw [hins.2.2]; omega)
      exact ⟨ih.1.trans hins.1, ih.2.1, ih.2.2⟩
    split
    · have hins := insertFrag_inv st i id0 fe sched.headI hwf (by omega)
      have ih := fragmentPassA_inv fs fe
        (insertFrag st i id0 (st.vals.getD id0 default) fe sched.headI)
        sched.tail (i + 1) n hins.2.1 (by rw [hins.2.2]; omega)
      exact ⟨ih.1.trans hins.1, ih.2.1, ih.2.2⟩
    · exact fragmentPassA_inv fs fe st sched (i + 1) n hwf hn
  · exact ⟨rfl, hwf, hn⟩
termination_by n - i
decreasing_by all_goals omega

/-- The window sweep: Go advances `[fragmentStartAt, fragmentEndAt)` by
`f` while `fragmentStartAt` is below the positional-last item's end
offset, taking a fresh `range` snapshot (fully aliased) each pass.  The
`0 < f` conjunct is a termination guard absent from the source — for
`f ≤ 0` and a positive last end offset the Go loop never terminates — and
the `stWF` conjunct (invariant on every reachable state) only makes the
termination measure provable. -/
def fragLoopA (f fs : Int) (st : FragSt) (sched : List Bool) : FragSt :=
  if h : 0 < f ∧ fs < lastEndA st ∧ stWF st then
    fragLoopA f (fs + f)
      (fragmentPassA fs (fs + f) { st with snapIds := st.curIds, aliased := true } sched 0
        st.curIds.length).1
      (fragmentPassA fs (fs + f) { st with snapIds := st.curIds, aliased := true } sched 0
        st.curIds.length).2
  else st
termination_by (lastEndA st - fs).toNat
decreasing_by
  have hinv := fragmentPassA_inv fs (fs + f)
    { st with snapIds := st.curIds, aliased := true } sched 0 st.curIds.length h.2.2
    (le_refl _)
  rw [hinv.1]
  have hre : lastEndA { st with snapIds := st.curIds, aliased := true } = lastEndA st := rfl
  rw [hre]
  omega

/-- `Fragment`: no-op on an empty document, else the window sweep from 0
followed by `Order`, rendered back from the cell store. -/
def fragment (f : Int) (sched : List Bool) (items : List Item) : List Item :=
  if items.length = 0 then items
  else
    let final := fragLoopA f 0
      ⟨items, List.range items.length, List.range items.length, true⟩ sched
    order (final.curIds.map (fun id => final.vals.getD id default))

/-- C8 counterexample: the outer sweep stops at the end offset of the
*positional last* item of the (unordered) slice, not at the maximal end
offset, so an item reaching past it is left uncut — under every `append`
capacity behaviour: on `[{0–100,"x"}, {1–2,"y"}]` with `f = 3` the result
keeps `{3–100,"x"}`, whose interval strictly contains the boundary
`6 = 2·3`, contradicting the claim that every item strictly containing a
boundary is replaced by its two halves. -/
theorem C8_counterexample :
    (∀ sched : List Bool,
      fragment 3 sched [mkCue 0 100 "x".toList, mkCue 1 2 "y".toList]
        = [mkCue 0 3 "x".toList, mkCue 1 2 "y".toList, mkCue 3 100 "x".toList]) ∧
    ∃ it ∈ fragment 3 [] [mkCue 0 100 "x".toList, mkCue 1 2 "y".toList],
      it.StartAt < 2 * 3 ∧ 2 * 3 < it.EndAt := by
  have hall : ∀ sched : List Bool,
      fragment 3 sched [mkCue 0 100 "x".toList, mkCue 1 2 "y".toList]
        = [mkCue 0 3 "x".toList, mkCue 1 2 "y".toList, mkCue 3 100 "x".toList] := by
    intro sched
    rcases sched with _ | ⟨b, t⟩
    · simp [fragment, fragLoopA, fragmentPassA, insertFrag, lastEndA, stWF, mkCue,
        order, orderLoop, bubblePass, List.range_succ, List.insertIdx_zero,
        List.insertIdx_succ_cons, List.headI, List.getLast?]
    · cases b <;>
        simp [fragment, fragLoopA, fragmentPassA, insertFrag, lastEndA, stWF, mkCue,
          order, orderLoop, bubblePass, List.range_succ, List.insertIdx_zero,
          List.insertIdx_succ_cons, List.headI, List.getLast?]
  exact ⟨hall, mkCue 3 100 "x".toList, by rw [hall []]; decide, by decide, by decide⟩

/-- C8 (amended): under every `append` capacity behaviour the result of
`Fragment` is ordered ascending by start offset, and the claim's scenario
holds: `Fragment(3s)` on the single item `{0–7s,"x"}` yields exactly
`{0–3s},{3–6s},{6–7s}`, all carrying the original lines (text `"x"`),
comments, style and region references.  Which items get cut in general
depends on the backing array's spare capacity (an in-place `append` shifts
the live `range` snapshot, hiding trailing items from the pass) and on the
sweep stopping at the positional-last item's end offset, so the original
claim's universal replace-each-straddling-item guarantee does not hold —
see the counterexample. -/
theorem C8_fragment_splits (f : Int) (sched : List Bool) (items : List Item) :
    sortedByStart (fragment f sched items) ∧
      ∀ sched2 : List Bool,
        fragment 3000000000 sched2 [mkCue 0 7000000000 "x".toList]
          = [mkCue 0 3000000000 "x".toList, mkCue 3000000000 6000000000 "x".toList,
              mkCue 6000000000 7000000000 "x".toList] := by
  constructor
  · unfold fragment
    split
    · next hlen =>
      have h0 : items = [] := List.length_eq_zero.mp hlen
      subst h0
      exact List.Pairwise.nil
    · dsimp only
      exact order_sorted _
  · intro sched2
    rcases sched2 with _ | ⟨b0, t⟩
    · simp [fragment, fragLoopA, fragmentPassA, insertFrag, lastEndA, stWF, mkCue,
        order, orderLoop, bubblePass, List.range_succ, List.insertIdx_zero,
        List.insertIdx_succ_cons, List.headI, List.getLast?]
    rcases t with _ | ⟨b1, t2⟩
    · cases b0 <;>
        simp [fragment, fragLoopA, fragmentPassA, insertFrag, lastEndA, stWF, mkCue,
          order, orderLoop, bubblePass, List.range_succ, List.insertIdx_zero,
          List.insertIdx_succ_cons, List.headI, List.getLast?]
    · cases b0 <;> cases b1 <;>
        simp [fragment, fragLoopA, fragmentPassA, insertFrag, lastEndA, stWF, mkCue,
          order, orderLoop, bubblePass, List.range_succ, List.insertIdx_zero,
          List.insertIdx_succ_cons, List.headI, List.getLast?]

end Astisub
